import Mathlib

/-!
# Verification of the autofix-w505 reflow and quote-normalization engine

This file gives a shallow embedding of `src/autofix_w505.py` (the text-reflow
and quote-normalization core) and proves properties about it.

Modelling conventions:
* Python strings are embedded as `List Char` (`Line`).
* Whitespace is the ASCII whitespace set `" \t\n\x0b\x0c\r"` used by
  `textwrap`, `str.strip`, and (for the ASCII fragment) the regex class `\s`.
* `textwrap.wrap` is modelled with the exact options used by the source:
  `break_long_words=False`, `break_on_hyphens=False`, default
  `expand_tabs/replace_whitespace/drop_whitespace`, no `max_lines`.
* Python exceptions (failed `assert`, `ValueError`, `textwrap`'s width check)
  are modelled by `Option`/`Except` results.
* Loops whose index arithmetic does not structurally decrease are modelled
  with an explicit fuel argument so that every definition is structural and
  evaluates inside the kernel; the top-level wrappers supply fuel that is
  provably sufficient.
-/

namespace W505

/-- A Python string (one source line, or any text). -/
abbrev Line := List Char

/-- ASCII whitespace, the character set of Python's `string.whitespace`
(`" \t\n\x0b\x0c\r"`), which is what `textwrap` munges and what `str.strip`
and the `\s` regex class recognize on ASCII input. -/
def wsChar (c : Char) : Bool :=
  c = ' ' || c = '\t' || c = '\n' || c = '\r' || c = Char.ofNat 11 || c = Char.ofNat 12

/-- Python `str.rstrip()`. -/
def rstrip (l : Line) : Line :=
  (l.reverse.dropWhile wsChar).reverse

/-- Python `str.lstrip()`. -/
def lstrip (l : Line) : Line :=
  l.dropWhile wsChar

/-- Python `str.strip()`. -/
def pyStrip (l : Line) : Line :=
  rstrip (lstrip l)

/-- Every character of the string is whitespace. -/
def allWs (l : Line) : Bool :=
  l.all wsChar

/-- ASCII lower-casing, for the case-insensitive `noqa` regex. -/
def lowerChar (c : Char) : Char :=
  if 'A' ≤ c ∧ c ≤ 'Z' then Char.ofNat (c.toNat + 32) else c

/-- Does the regex `#\s*noqa` (case-insensitive) match at the start of `l`? -/
def noqaAt (l : Line) : Bool :=
  match l with
  | '#' :: rest =>
    ((rest.dropWhile wsChar).map lowerChar).take 4 = ['n', 'o', 'q', 'a'] &&
      (rest.dropWhile wsChar).length ≥ 4
  | _ => false

/-- `re_noqa.search(l)`: the regex `#\s*noqa` (case-insensitive) matches
somewhere in `l`. -/
def hasNoqa (l : Line) : Bool :=
  l.tails.any noqaAt

/-- The digit class `[1-9]`. -/
def digit19 (c : Char) : Bool := '1' ≤ c && c ≤ '9'

/-- The digit class `[0-9]`. -/
def digit09 (c : Char) : Bool := '0' ≤ c && c ≤ '9'

/-- The letter class `[A-Za-z]`. -/
def alphaChar (c : Char) : Bool :=
  ('A' ≤ c && c ≤ 'Z') || ('a' ≤ c && c ≤ 'z')

/-- The punctuation that may follow a list number: `[.)]`. -/
def dotParen (c : Char) : Bool := c = '.' || c = ')'

/-- The head of the list-marker regex
`(?:[*-]|[1-9][0-9]?[.)]|[A-Za-z][.)])`, returning how many characters it
consumes (with the same backtracking behaviour as the regex engine). -/
def markerHead (l : Line) : Option Nat :=
  match l with
  | [] => none
  | c :: rest =>
    if c = '*' || c = '-' then some 1
    else if digit19 c then
      match rest with
      | [] => none
      | [d] => if dotParen d then some 2 else none
      | d :: p :: _ =>
        if digit09 d && dotParen p then some 3
        else if dotParen d then some 2
        else none
    else if alphaChar c then
      match rest with
      | [] => none
      | p :: _ => if dotParen p then some 2 else none
    else none

/-- `re_list_marker` matched at the start of `l`: the marker head followed by
`\s+`.  Returns `(marker text including its trailing whitespace, rest)`. -/
def matchMarker (l : Line) : Option (Line × Line) :=
  match markerHead l with
  | none => none
  | some n =>
    let rest := l.drop n
    let w := rest.takeWhile wsChar
    if w.isEmpty then none
    else some (l.take n ++ w, rest.drop w.length)

/-- The paragraph-start classification of `rewrap_text`
(`re.match(rf"^({re_indent})({re_list_marker})?", line)` where `re_indent` is
`\s*` in docstring mode and `\s*#\s*` in comment mode).  Returns
`(indent, list marker)`; `none` models the failed `assert match` (possible
only in comment mode, when the line has no `#`). -/
def parseIndentMarker (isDocstring : Bool) (l : Line) : Option (Line × Line) :=
  if isDocstring then
    let ind := l.takeWhile wsChar
    let rest := l.drop ind.length
    match matchMarker rest with
    | some (mk, _) => some (ind, mk)
    | none => some (ind, [])
  else
    let a := l.takeWhile wsChar
    match l.drop a.length with
    | '#' :: r2 =>
      let b := r2.takeWhile wsChar
      let ind := a ++ '#' :: b
      let rest := r2.drop b.length
      match matchMarker rest with
      | some (mk, _) => some (ind, mk)
      | none => some (ind, [])
    | _ => none

/-! ## The textwrap model -/

/-- `str.expandtabs(8)`: replace each tab with spaces up to the next multiple
of 8, with the column reset by `\n`/`\r`. -/
def expandTabsAux : Nat → List Char → List Char
  | _, [] => []
  | col, c :: cs =>
    if c = '\t' then
      List.replicate (8 - col % 8) ' ' ++ expandTabsAux (col + (8 - col % 8)) cs
    else if c = '\n' || c = '\r' then c :: expandTabsAux 0 cs
    else c :: expandTabsAux (col + 1) cs

/-- `TextWrapper._munge_whitespace`: expand tabs, then map every whitespace
character to a plain space. -/
def munge (l : Line) : Line :=
  (expandTabsAux 0 l).map (fun c => if wsChar c then ' ' else c)

/-- One chunk produced by `TextWrapper._split`: a maximal run of whitespace
or a maximal run of non-whitespace. -/
abbrev Chunk := List Char

/-- Helper for `chunkify`: `cls` is the whitespace-class of the current run
`acc` (kept in order, nonempty). -/
def chunkAux (cls : Bool) (acc : Chunk) : List Char → List Chunk
  | [] => [acc]
  | c :: cs =>
    if wsChar c = cls then chunkAux cls (acc ++ [c]) cs
    else acc :: chunkAux (wsChar c) [c] cs

/-- `TextWrapper._split` with `break_on_hyphens=False`:
`re.split(r"(\s+)")` keeping nonempty pieces, i.e. the maximal
whitespace/non-whitespace runs of the text, in order. -/
def chunkify : List Char → List Chunk
  | [] => []
  | c :: cs => chunkAux (wsChar c) [c] cs

/-- A chunk that `chunk.strip() == ""` recognizes as whitespace. -/
def isWsChunk (c : Chunk) : Bool := c.all wsChar

/-- The greedy inner loop of `_wrap_chunks`: keep taking chunks while they
fit in `width`.  Returns `(taken, rest)`; `taken ++ rest` is the input. -/
def takeChunks (width : Int) : Int → List Chunk → List Chunk × List Chunk
  | _, [] => ([], [])
  | curLen, c :: cs =>
    if curLen + (c.length : Int) ≤ width then
      let p := takeChunks width (curLen + (c.length : Int)) cs
      (c :: p.1, p.2)
    else ([], c :: cs)

/-- `drop_whitespace` at the end of a line: drop the current line's trailing
whitespace chunk. -/
def dropTrailWs (cur : List Chunk) : List Chunk :=
  match cur.getLast? with
  | some c => if isWsChunk c then cur.dropLast else cur
  | none => cur

/-- One line's worth of chunk consumption in `_wrap_chunks`: the greedy take
followed by `_handle_long_word` (which, with `break_long_words=False`, moves
the overlong head chunk onto the line only when the line is still empty).
Returns `(chunks of the current line, remaining chunks)`. -/
def lineAttempt (width : Int) (chunks : List Chunk) : List Chunk × List Chunk :=
  let p := takeChunks width 0 chunks
  match p.2 with
  | [] => p
  | d :: ds =>
    if (d.length : Int) > width && p.1.isEmpty then ([d], ds) else p

/-- The outer loop of `TextWrapper._wrap_chunks` with `drop_whitespace=True`,
`break_long_words=False` and no `max_lines`.  `hasLines` tracks whether any
output line has been emitted (Python's `if lines` tests).  Fuel-structural;
each iteration consumes at least one chunk, so fuel `chunks.length + 1` is
sufficient. -/
def wrapLoopF (maxW : Nat) (ii si : Line) : Nat → List Chunk → Bool → List Line
  | 0, _, _ => []
  | _, [], _ => []
  | fuel + 1, c :: cs, hasLines =>
    let indent := if hasLines then si else ii
    let width : Int := (maxW : Int) - (indent.length : Int)
    let chunks := if hasLines && isWsChunk c then cs else c :: cs
    let q := lineAttempt width chunks
    let cur := dropTrailWs q.1
    if cur.isEmpty then wrapLoopF maxW ii si fuel q.2 hasLines
    else (indent ++ cur.flatten) :: wrapLoopF maxW ii si fuel q.2 true

/-- `textwrap.wrap(text, width=maxW, initial_indent=ii,
subsequent_indent=si, break_long_words=False, break_on_hyphens=False)`.
`none` models the `ValueError` raised when the width is not positive. -/
def pyWrap (maxW : Nat) (ii si : Line) (text : Line) : Option (List Line) :=
  if maxW = 0 then none
  else
    let chunks := chunkify (munge text)
    some (wrapLoopF maxW ii si (chunks.length + 1) chunks false)

/-! ## Tokens

`tokens l` is the list of maximal non-whitespace runs of `l`; this is the
specification-side notion of "non-whitespace token" used in the content
preservation and width claims. -/

/-- The non-whitespace chunks of a chunk list. -/
def wordChunks (cs : List Chunk) : List Chunk :=
  cs.filter (fun c => !isWsChunk c)

/-- The non-whitespace tokens of a string, in order. -/
def tokens (l : Line) : List Chunk :=
  wordChunks (chunkify l)

/-- Tokens of a list of lines, concatenated in order. -/
def tokensAll (ls : List Line) : List Chunk :=
  ls.flatMap tokens

/-! ## rewrap_text -/

/-- Paragraph extension of `rewrap_text`: how many further lines (beyond the
first) belong to the paragraph whose prefix is `pre`.  Follows the source's
checks in order: prefix match, emptiness, closing triple quote (docstring
mode), indentation/doctest/list-marker change, `noqa`, trailing colon. -/
def extendPara (pre : Line) (isDocstring : Bool) : List Line → Nat
  | [] => 0
  | l :: rest =>
    if !(pre.isPrefixOf l) then 0
    else
      let s := rstrip (l.drop pre.length)
      if s.isEmpty then 0
      else if isDocstring &&
          (pyStrip s = ['"', '"', '"'] ||
           pyStrip s = [Char.ofNat 39, Char.ofNat 39, Char.ofNat 39]) then 0
      else if (match s.head? with | some c => wsChar c | none => false) ||
          ['>', '>', '>'].isPrefixOf s || (matchMarker s).isSome then 0
      else if hasNoqa s then 0
      else if s.getLast? = some ':' then 1
      else 1 + extendPara pre isDocstring rest

/-- The body of `rewrap_text`, fuel-structural (each step consumes at least
one input line, so fuel `lines.length` is sufficient).  `none` models an
uncaught exception (failed `assert match` in comment mode, or `textwrap`'s
width check). -/
def rewrapF (maxW : Nat) (isDocstring : Bool) : Nat → List Line → Option (List Line × Bool)
  | _, [] => some ([], false)
  | 0, _ => none
  | fuel + 1, l :: rest =>
    if l.length ≤ maxW || hasNoqa l then
      (rewrapF maxW isDocstring fuel rest).map (fun r => (l :: r.1, r.2))
    else
      match parseIndentMarker isDocstring l with
      | none => none
      | some (ind, mk) =>
        let pre := ind ++ List.replicate mk.length ' '
        let k := if (rstrip l).getLast? = some ':' then 0
                 else extendPara pre isDocstring rest
        let para := List.intercalate ['\n']
          ((l :: rest.take k).map (fun x => x.drop pre.length))
        match pyWrap maxW (ind ++ mk) pre para with
        | none => none
        | some newLines =>
          (rewrapF maxW isDocstring fuel (rest.drop k)).map
            (fun r => (newLines ++ r.1, true))

/-- `rewrap_text(lines, max_length, is_docstring)`: returns the new lines and
whether anything was modified; `none` models an uncaught exception. -/
def pyRewrap (lines : List Line) (maxW : Nat) (isDocstring : Bool) :
    Option (List Line × Bool) :=
  rewrapF maxW isDocstring lines.length lines

/-! ## Quote normalization -/

/-- The single-quote character (spelled by code point to keep source plain). -/
def sq : Char := Char.ofNat 39

/-- Errors raised by the docstring pipeline.  Each constructor carries the
offending text, mirroring the messages of the `ValueError`s in the source
(`"Invalid docstring format: {line!r}"` and
`"Invalid docstring format: {quote} doesn't match {last!r}"`); `assertFail`
models a failed `assert`, `emptySpan` an `IndexError` on an empty span. -/
inductive DocErr where
  | invalidFormat (line : Line)
  | quoteMismatch (quote : Line) (lastLine : Line)
  | assertFail
  | emptySpan
deriving DecidableEq

/-- The quote alternation `(?:"""|'''|"|')` matched at the start of `l`
(alternatives tried in that order, as the regex engine does). -/
def quoteTokNoR (l : Line) : Option (Line × Line) :=
  if ['"', '"', '"'].isPrefixOf l then some (['"', '"', '"'], l.drop 3)
  else if [sq, sq, sq].isPrefixOf l then some ([sq, sq, sq], l.drop 3)
  else if ['"'].isPrefixOf l then some (['"'], l.drop 1)
  else if [sq].isPrefixOf l then some ([sq], l.drop 1)
  else none

/-- `re_quote` = `r?(?:"""|'''|"|')` matched at the start of `l`.  If the
leading `r` is not followed by a quote the engine backtracks to an empty
`r?`, but no quote alternative can match at the letter `r`, so the whole
match fails. -/
def quoteTok (l : Line) : Option (Line × Line) :=
  match l with
  | 'r' :: rest =>
    (match quoteTokNoR rest with
     | some (q, r) => some ('r' :: q, r)
     | none => none)
  | _ => quoteTokNoR l

/-- The canonical delimiter `"""`. -/
def dq3 : Line := ['"', '"', '"']

/-- `ensure_docstring_triple_quotes(lines)`: rewrite the opening and closing
quote markers to triple-double unless already canonical.  Mirrors the
source's two sequential element assignments (which alias for a single-line
docstring). -/
def ensureTriple (lines : List Line) : Except DocErr (List Line × Bool) :=
  match lines with
  | [] => .error .emptySpan
  | l0 :: _ =>
    let indent := l0.takeWhile wsChar
    match quoteTok (l0.drop indent.length) with
    | none => .error (.invalidFormat l0)
    | some (quote, content) =>
      if quote = dq3 || quote = 'r' :: dq3 then .ok (lines, false)
      else
        let raw : Line := if quote.head? = some 'r' then ['r'] else []
        let endQuote := quote.dropWhile (fun c => c = 'r')
        let lastLine := lines.getLastD []
        if !(endQuote.isSuffixOf (rstrip lastLine)) then
          .error (.quoteMismatch quote lastLine)
        else
          let lines1 := lines.set 0 (indent ++ raw ++ dq3 ++ content)
          let cur := lines1.getLastD []
          let newLast := (rstrip cur).take ((rstrip cur).length - endQuote.length) ++ dq3
          .ok (lines1.set (lines1.length - 1) newLast, true)

/-- The regex `^(\s*){quote}(.*){end_quote}\s*$` used to split a single-line
docstring: leading whitespace, the opening quote, then the content up to the
final closing quote that is followed only by whitespace. -/
def matchSplitSingle (l quote endQuote : Line) : Option (Line × Line) :=
  let ind := l.takeWhile wsChar
  let r1 := l.drop ind.length
  if quote.isPrefixOf r1 then
    let r3 := rstrip (r1.drop quote.length)
    if endQuote.isSuffixOf r3 then
      some (ind, r3.take (r3.length - endQuote.length))
    else none
  else none

/-- The part of `process_docstring` that runs before any paragraph reflow:
quote normalization followed by the single-line split special case. -/
def docstringPreReflow (lines : List Line) (maxW : Nat) (force : Bool) :
    Except DocErr (List Line × Bool) :=
  match lines with
  | [] => .error .emptySpan
  | l0 :: _ =>
    let step1 : Except DocErr (List Line × Bool) :=
      if force || l0.length > maxW then ensureTriple lines else .ok (lines, false)
    match step1 with
    | .error e => .error e
    | .ok (lines1, m1) =>
      let h0 := lines1.headD []
      let ind := h0.takeWhile wsChar
      match quoteTok (h0.drop ind.length) with
      | none => .error (.invalidFormat h0)
      | some (quote, _) =>
        if lines1.length = 1 && h0.length > maxW then
          let endQuote := if quote.head? = some 'r' then quote.drop 1 else quote
          if endQuote = dq3 then
            match matchSplitSingle h0 quote endQuote with
            | none => .error .assertFail
            | some (ind2, content) =>
              .ok ([ind2 ++ quote, ind2 ++ content, ind2 ++ endQuote], true)
          else .error .assertFail
        else .ok (lines1, m1)

/-- The reflow step of `process_docstring`: rewrap if any line is overlong. -/
def docstringReflow (maxW : Nat) (st : List Line × Bool) :
    Except DocErr (List Line × Bool) :=
  if st.1.any (fun l => l.length > maxW) then
    match pyRewrap st.1 maxW true with
    | none => .error .assertFail
    | some (lines2, m2) => .ok (lines2, st.2 || m2)
  else .ok st

/-- `process_docstring(lines, max_length, force_triple_quotes)`. -/
def processDocstring (lines : List Line) (maxW : Nat) (force : Bool) :
    Except DocErr (List Line × Bool) :=
  match docstringPreReflow lines maxW force with
  | .error e => .error e
  | .ok st => docstringReflow maxW st

/-! ## process_content: docstring driver and comment block scanner -/

/-- Descending lexicographic order on `(start, end)` spans, as produced by
`sorted(locs, reverse=True)`. -/
def pairGe (a b : Nat × Nat) : Bool :=
  b.1 < a.1 || (b.1 = a.1 && b.2 ≤ a.2)

/-- Insertion into a descending-sorted list of spans. -/
def insertDesc (p : Nat × Nat) : List (Nat × Nat) → List (Nat × Nat)
  | [] => [p]
  | q :: rest => if pairGe q p then q :: insertDesc p rest else p :: q :: rest

/-- `sorted(locs, reverse=True)`. -/
def sortDesc : List (Nat × Nat) → List (Nat × Nat)
  | [] => []
  | p :: rest => insertDesc p (sortDesc rest)

/-- The docstring loop of `process_content`: for each span `[s, e)` (already
in descending order), process the slice and splice the result back.  The
span list is the input from the external syntax-tree span provider
(`DocstringFinder`), which is outside the modelled core. -/
def docstringPass (maxW : Nat) (force : Bool) :
    List (Nat × Nat) → List Line → Except DocErr (List Line × Bool)
  | [], lines => .ok (lines, false)
  | (s, e) :: rest, lines =>
    let sub := (lines.drop s).take (e - s)
    match processDocstring sub maxW force with
    | .error err => .error err
    | .ok (newSub, m) =>
      let lines2 := if m then lines.take s ++ newSub ++ lines.drop e else lines
      match docstringPass maxW force rest lines2 with
      | .error err => .error err
      | .ok (lines3, m2) => .ok (lines3, m || m2)

/-- `line.lstrip().startswith("#")`. -/
def isCommentLine (l : Line) : Bool := (lstrip l).head? = some '#'

/-- The comment loop of `process_content`.  After a block is rewrapped the
source sets `lineno = end_line` in the coordinates of the updated buffer, so
scanning resumes `oldLen` lines after the block start; this index juggling
does not structurally decrease, hence the fuel. -/
def goComment (maxW : Nat) : Nat → List Line → Option (List Line × Bool)
  | _, [] => some ([], false)
  | 0, _ => none
  | fuel + 1, l :: rest =>
    if !(isCommentLine l) then
      (goComment maxW fuel rest).map (fun r => (l :: r.1, r.2))
    else
      let block := l :: rest.takeWhile isCommentLine
      let after := rest.dropWhile isCommentLine
      let oldLen := block.length
      let step : Option (List Line × Bool) :=
        if block.any (fun x => x.length > maxW) then pyRewrap block maxW false
        else some (block, false)
      match step with
      | none => none
      | some (newBlock, m) =>
        let comb := newBlock ++ after
        (goComment maxW fuel (comb.drop oldLen)).map
          (fun r => (comb.take oldLen ++ r.1, m || r.2))

/-- Generous fuel for the comment scanner. -/
def commentFuel (lines : List Line) : Nat :=
  lines.length + (lines.map List.length).sum + 1

/-- The comment part of `process_content`, including the shebang skip for
line 0. -/
def commentPass (maxW : Nat) (lines : List Line) : Option (List Line × Bool) :=
  match lines with
  | [] => some ([], false)
  | l0 :: rest =>
    if ['#', '!'].isPrefixOf l0 then
      (goComment maxW (commentFuel lines) rest).map (fun r => (l0 :: r.1, r.2))
    else goComment maxW (commentFuel lines) lines

/-- `process_content` on an already-split line buffer.  `locs` is the list of
`[start, end)` docstring spans delivered by the external span provider. -/
def processContent (lines : List Line) (locs : List (Nat × Nat)) (maxW : Nat)
    (force wrapComments wrapDocstrings : Bool) :
    Except DocErr (List Line × Bool) :=
  let step1 : Except DocErr (List Line × Bool) :=
    if wrapDocstrings then docstringPass maxW force (sortDesc locs) lines
    else .ok (lines, false)
  match step1 with
  | .error e => .error e
  | .ok (lines1, m1) =>
    if wrapComments then
      match commentPass maxW lines1 with
      | none => .error .assertFail
      | some (lines2, m2) => .ok (lines2, m1 || m2)
    else .ok (lines1, m1)

/-- The flag wiring of `main`: given `--skip-comments` and
`--skip-docstrings`, the values passed for `(wrap_comments,
wrap_docstrings)` are `(not skip_docstrings, not skip_comments)`, exactly as
written in the source. -/
def mainWrapFlags (skipComments skipDocstrings : Bool) : Bool × Bool :=
  (!skipDocstrings, !skipComments)

/-- A line consisting of a recognized structural indent (and optional list
marker) followed by a single non-whitespace token.  Such a line carries an
unbreakable token and is the only kind of over-wide line the wrapper can
emit. -/
def singleTokenLine (isDocstring : Bool) (l : Line) : Bool :=
  match parseIndentMarker isDocstring l with
  | some (ind, mk) =>
    let r := l.drop (ind.length + mk.length)
    !r.isEmpty && r.all (fun c => !wsChar c)
  | none => false

/-! ## Generic list lemmas -/

theorem tw_append_all {α : Type} {p : α → Bool} {a b : List α}
    (h : ∀ x ∈ a, p x = true) :
    (a ++ b).takeWhile p = a ++ b.takeWhile p := by
  induction a with
  | nil => simp
  | cons x xs ih =>
    simp only [List.cons_append, List.takeWhile_cons, h x (by simp)]
    simp [ih (fun y hy => h y (by simp [hy]))]

theorem dw_append_all {α : Type} {p : α → Bool} {a b : List α}
    (h : ∀ x ∈ a, p x = true) :
    (a ++ b).dropWhile p = b.dropWhile p := by
  induction a with
  | nil => simp
  | cons x xs ih =>
    simp only [List.cons_append, List.dropWhile_cons, h x (by simp)]
    simp [ih (fun y hy => h y (by simp [hy]))]

theorem tw_append_stop {α : Type} {p : α → Bool} {a b : List α}
    (h : a.dropWhile p ≠ []) :
    (a ++ b).takeWhile p = a.takeWhile p := by
  rw [List.takeWhile_append]
  have hlt : (a.takeWhile p).length ≠ a.length := by
    intro hc
    have := List.takeWhile_append_dropWhile p a
    have hlen := congrArg List.length this
    simp only [List.length_append] at hlen
    have : (a.dropWhile p).length = 0 := by omega
    exact h (List.length_eq_zero.mp this)
  simp [hlt]

theorem dw_append_stop {α : Type} {p : α → Bool} {a b : List α}
    (h : a.dropWhile p ≠ []) :
    (a ++ b).dropWhile p = a.dropWhile p ++ b := by
  rw [List.dropWhile_append]
  simp [List.isEmpty_iff, h]

theorem tw_all_head_stop {α : Type} {p : α → Bool} {a b : List α}
    (h : ∀ x ∈ a, p x = true) (hb : ∀ c ∈ b.head?, p c = false) :
    (a ++ b).takeWhile p = a := by
  rw [tw_append_all h]
  cases b with
  | nil => simp
  | cons c cs =>
    have := hb c (by simp)
    simp [List.takeWhile_cons, this]

theorem dw_all_head_stop {α : Type} {p : α → Bool} {a b : List α}
    (h : ∀ x ∈ a, p x = true) (hb : ∀ c ∈ b.head?, p c = false) :
    (a ++ b).dropWhile p = b := by
  rw [dw_append_all h]
  cases b with
  | nil => simp
  | cons c cs =>
    have := hb c (by simp)
    simp [List.dropWhile_cons, this]

theorem drop_len_takeWhile {α : Type} (p : α → Bool) (l : List α) :
    l.drop (l.takeWhile p).length = l.dropWhile p := by
  calc l.drop (l.takeWhile p).length
      = (l.takeWhile p ++ l.dropWhile p).drop (l.takeWhile p).length := by
        rw [List.takeWhile_append_dropWhile]
    _ = l.dropWhile p := List.drop_left _ _

/-- `rstrip` is the identity on a string ending in a non-whitespace
character. -/
theorem rstrip_last_nonws {l : Line} {c : Char} (h : wsChar c = false) :
    rstrip (l ++ [c]) = l ++ [c] := by
  unfold rstrip
  rw [List.reverse_append]
  simp [List.dropWhile_cons, h]

theorem allWs_append {a b : Line} :
    allWs (a ++ b) = (allWs a && allWs b) := by
  simp [allWs, List.all_append]

/-! ## Chunk consumption lemmas -/

/-- Total length of a chunk list, as an integer. -/
def sumLenI (cs : List Chunk) : Int :=
  (cs.map (fun c => (c.length : Int))).sum

theorem sumLenI_nonneg (cs : List Chunk) : 0 ≤ sumLenI cs := by
  induction cs with
  | nil => simp [sumLenI]
  | cons c cs ih =>
    simp only [sumLenI, List.map_cons, List.sum_cons]
    have : (0 : Int) ≤ (c.length : Int) := Int.ofNat_nonneg _
    simp only [sumLenI] at ih
    omega

theorem takeChunks_append (w : Int) : ∀ (n : Int) (l : List Chunk),
    (takeChunks w n l).1 ++ (takeChunks w n l).2 = l := by
  intro n l
  induction l generalizing n with
  | nil => simp [takeChunks]
  | cons c cs ih =>
    simp only [takeChunks]
    split
    · simpa using ih (n + c.length)
    · simp

theorem takeChunks_sum (w : Int) : ∀ (l : List Chunk) (n : Int),
    (takeChunks w n l).1 ≠ [] → n + sumLenI (takeChunks w n l).1 ≤ w := by
  intro l
  induction l with
  | nil => intro n h; simp [takeChunks] at h
  | cons c cs ih =>
    intro n h
    by_cases hfit : n + (c.length : Int) ≤ w
    · simp only [takeChunks, if_pos hfit]
      by_cases he : (takeChunks w (n + (c.length : Int)) cs).1 = []
      · simp only [he, sumLenI, List.map_cons, List.map_nil, List.sum_cons,
          List.sum_nil, add_zero]
        omega
      · have hih := ih (n + (c.length : Int)) he
        simp only [sumLenI, List.map_cons, List.sum_cons] at hih ⊢
        omega
    · exfalso
      apply h
      simp [takeChunks, hfit]

theorem takeChunks_reject {w n : Int} {d : Chunk} {ds : List Chunk}
    (h : (takeChunks w n (d :: ds)).1 = []) : ¬(n + (d.length : Int) ≤ w) := by
  intro hc
  simp only [takeChunks, if_pos hc] at h
  exact List.cons_ne_nil _ _ h

/-- Case analysis for `lineAttempt`: either the greedy take is used as is
(and then it is nonempty unless all chunks were consumed), or the head chunk
was overlong with an empty line and is emitted alone. -/
theorem lineAttempt_cases (w : Int) (ch : List Chunk) :
    (lineAttempt w ch = takeChunks w 0 ch ∧
      ((takeChunks w 0 ch).1 ≠ [] ∨ (takeChunks w 0 ch).2 = [])) ∨
    ∃ d ds, takeChunks w 0 ch = ([], d :: ds) ∧ (d.length : Int) > w ∧
      lineAttempt w ch = ([d], ds) := by
  have hq : lineAttempt w ch = (match (takeChunks w 0 ch).2 with
    | [] => takeChunks w 0 ch
    | d :: ds => if (d.length : Int) > w && (takeChunks w 0 ch).1.isEmpty
        then ([d], ds) else takeChunks w 0 ch) := rfl
  rcases h2 : (takeChunks w 0 ch).2 with _ | ⟨d, ds⟩
  · rw [h2] at hq
    exact Or.inl ⟨hq, Or.inr rfl⟩
  · rw [h2] at hq
    dsimp only at hq
    by_cases h1 : (takeChunks w 0 ch).1 = []
    · have hch : ch = d :: ds := by
        have hsp := takeChunks_append w 0 ch
        rw [h1, h2, List.nil_append] at hsp
        exact hsp.symm
      have hrej : ¬((0 : Int) + (d.length : Int) ≤ w) := by
        apply @takeChunks_reject w 0 d ds
        rw [← hch]
        exact h1
      have hgt : (d.length : Int) > w := by omega
      refine Or.inr ⟨d, ds, ?_, hgt, ?_⟩
      · exact Prod.ext h1 h2
      · rw [hq, if_pos]
        simp [hgt, List.isEmpty_iff, h1]
    · refine Or.inl ⟨?_, Or.inl h1⟩
      rw [hq, if_neg]
      simp [List.isEmpty_iff, h1]

theorem lineAttempt_append (w : Int) (ch : List Chunk) :
    (lineAttempt w ch).1 ++ (lineAttempt w ch).2 = ch := by
  rcases lineAttempt_cases w ch with ⟨hq, _⟩ | ⟨d, ds, hp, _, hq⟩
  · rw [hq]
    exact takeChunks_append w 0 ch
  · rw [hq]
    have hsp := takeChunks_append w 0 ch
    rw [hp] at hsp
    simpa using hsp

theorem lineAttempt_consume (w : Int) {ch : List Chunk} (h : ch ≠ []) :
    (lineAttempt w ch).2.length < ch.length := by
  have hsp := lineAttempt_append w ch
  rcases lineAttempt_cases w ch with ⟨hq, hne⟩ | ⟨d, ds, hp, _, hq⟩
  · rcases hne with hne | hnil
    · have hlen := congrArg List.length hsp
      simp only [List.length_append] at hlen
      have : 0 < (lineAttempt w ch).1.length := by
        rw [hq]
        exact List.length_pos.mpr hne
      omega
    · rw [hq, hnil]
      simpa using List.length_pos.mpr h
  · rw [hq]
    have hsp2 := takeChunks_append w 0 ch
    rw [hp] at hsp2
    simp only [List.nil_append] at hsp2
    rw [← hsp2]
    simp

theorem lineAttempt_shape (w : Int) (ch : List Chunk) :
    (lineAttempt w ch).1 = [] ∨
    sumLenI (lineAttempt w ch).1 ≤ w ∨
    ∃ d, (lineAttempt w ch).1 = [d] := by
  rcases lineAttempt_cases w ch with ⟨hq, _⟩ | ⟨d, ds, _, _, hq⟩
  · by_cases h : (takeChunks w 0 ch).1 = []
    · exact Or.inl (by rw [hq]; exact h)
    · refine Or.inr (Or.inl ?_)
      rw [hq]
      simpa using takeChunks_sum w ch 0 h
  · exact Or.inr (Or.inr ⟨d, by rw [hq]⟩)

/-! ## dropTrailWs lemmas -/

theorem dropTrailWs_shape (cur : List Chunk) :
    dropTrailWs cur = cur ∨
    ∃ c, cur = dropTrailWs cur ++ [c] ∧ isWsChunk c = true := by
  unfold dropTrailWs
  match hl : cur.getLast? with
  | none => exact Or.inl rfl
  | some c =>
    by_cases hws : isWsChunk c = true
    · refine Or.inr ⟨c, ?_, hws⟩
      simp only [hws, if_true]
      exact (List.dropLast_append_getLast? c hl).symm
    · simp only [Bool.not_eq_true] at hws
      simp [hws]

theorem wordChunks_append (a b : List Chunk) :
    wordChunks (a ++ b) = wordChunks a ++ wordChunks b := by
  simp [wordChunks, List.filter_append]

theorem wordChunks_dropTrailWs (cur : List Chunk) :
    wordChunks (dropTrailWs cur) = wordChunks cur := by
  rcases dropTrailWs_shape cur with h | ⟨c, hc, hws⟩
  · rw [h]
  · conv_rhs => rw [hc]
    rw [wordChunks_append]
    simp [wordChunks, hws]

theorem sumLenI_dropTrailWs (cur : List Chunk) :
    sumLenI (dropTrailWs cur) ≤ sumLenI cur := by
  rcases dropTrailWs_shape cur with h | ⟨c, hc, _⟩
  · rw [h]
  · conv_rhs => rw [hc]
    simp only [sumLenI, List.map_append, List.sum_append, List.map_cons,
      List.map_nil, List.sum_cons, List.sum_nil]
    have : (0 : Int) ≤ (c.length : Int) := Int.ofNat_nonneg _
    omega

theorem dropTrailWs_nil {cur : List Chunk} (h : dropTrailWs cur = []) :
    wordChunks cur = [] := by
  rw [← wordChunks_dropTrailWs, h]
  rfl

/-! ## Chunk structure of a string -/

theorem length_dropWhile_le {α : Type} (p : α → Bool) (l : List α) :
    (l.dropWhile p).length ≤ l.length := by
  have h := congrArg List.length (List.takeWhile_append_dropWhile p l)
  simp only [List.length_append] at h
  omega

theorem chunkAux_eq (cls : Bool) : ∀ (l : List Char) (acc : Chunk),
    chunkAux cls acc l =
      (acc ++ l.takeWhile (fun d => wsChar d == cls)) ::
        chunkify (l.dropWhile (fun d => wsChar d == cls)) := by
  intro l
  induction l with
  | nil => intro acc; simp [chunkAux, chunkify]
  | cons c cs ih =>
    intro acc
    by_cases hc : wsChar c = cls
    · have hbeq : (wsChar c == cls) = true := by simp [hc]
      simp only [chunkAux, if_pos hc, List.takeWhile_cons, List.dropWhile_cons,
        hbeq, if_true]
      rw [ih]
      simp
    · have hbeq : (wsChar c == cls) = false := by
        simp [hc]
      simp only [chunkAux, if_neg hc, List.takeWhile_cons, List.dropWhile_cons,
        hbeq, Bool.false_eq_true, if_false]
      simp [chunkify]

theorem chunkify_cons (c : Char) (cs : List Char) :
    chunkify (c :: cs) =
      (c :: cs.takeWhile (fun d => wsChar d == wsChar c)) ::
        chunkify (cs.dropWhile (fun d => wsChar d == wsChar c)) := by
  show chunkAux (wsChar c) [c] cs = _
  rw [chunkAux_eq]
  simp

theorem pred_beq_true : (fun d => wsChar d == true) = wsChar := by
  funext d
  cases h : wsChar d <;> simp

theorem pred_beq_false : (fun d => wsChar d == false) = (fun d => !wsChar d) := by
  funext d
  cases h : wsChar d <;> simp

/-! ## Token interface lemmas -/

theorem tokens_nil : tokens [] = [] := rfl

theorem tokens_cons_ws {c : Char} (cs : List Char) (h : wsChar c = true) :
    tokens (c :: cs) = tokens (cs.dropWhile wsChar) := by
  unfold tokens
  rw [chunkify_cons, h, pred_beq_true]
  unfold wordChunks
  rw [List.filter_cons]
  have hws : isWsChunk (c :: cs.takeWhile wsChar) = true := by
    simp only [isWsChunk, List.all_eq_true]
    intro x hx
    rcases List.mem_cons.mp hx with hx | hx
    · rw [hx]; exact h
    · exact List.mem_takeWhile_imp hx
  simp [hws]

theorem tokens_dropWhile_ws (l : Line) : tokens (l.dropWhile wsChar) = tokens l := by
  cases l with
  | nil => rfl
  | cons c cs =>
    by_cases h : wsChar c = true
    · rw [List.dropWhile_cons, if_pos h, tokens_cons_ws cs h]
    · rw [List.dropWhile_cons, if_neg (by simp [h])]

theorem tokens_ws_cons {c : Char} (cs : List Char) (h : wsChar c = true) :
    tokens (c :: cs) = tokens cs := by
  rw [tokens_cons_ws cs h, tokens_dropWhile_ws]

theorem tokens_ws_append {i : Line} (z : Line) (h : allWs i = true) :
    tokens (i ++ z) = tokens z := by
  induction i with
  | nil => simp
  | cons c cs ih =>
    simp only [allWs, List.all_cons, Bool.and_eq_true] at h
    rw [List.cons_append, tokens_ws_cons _ h.1]
    exact ih (by simp [allWs, h.2])

theorem tokens_all_ws {l : Line} (h : allWs l = true) : tokens l = [] := by
  have := tokens_ws_append [] h
  simpa using this

theorem tokens_cons_nonws {c : Char} (cs : List Char) (h : wsChar c = false) :
    tokens (c :: cs) =
      (c :: cs.takeWhile (fun d => !wsChar d)) ::
        tokens (cs.dropWhile (fun d => !wsChar d)) := by
  unfold tokens
  rw [chunkify_cons, h, pred_beq_false]
  unfold wordChunks
  rw [List.filter_cons]
  have hnw : isWsChunk (c :: cs.takeWhile (fun d => !wsChar d)) = false := by
    simp only [isWsChunk]
    simp [h]
  simp [hnw]

/-- A nonempty whitespace-free run followed by text starting with whitespace
(or nothing) contributes itself as a single token. -/
theorem tokens_run_append {c : Chunk} (z : Line) (hne : c ≠ [])
    (hall : ∀ x ∈ c, wsChar x = false)
    (hz : ∀ d ∈ z.head?, wsChar d = true) :
    tokens (c ++ z) = c :: tokens z := by
  match c with
  | [] => exact absurd rfl hne
  | x :: xs =>
    rw [List.cons_append, tokens_cons_nonws _ (hall x (by simp))]
    have htw : (xs ++ z).takeWhile (fun d => !wsChar d) = xs := by
      apply tw_all_head_stop
      · intro y hy; simp [hall y (by simp [hy])]
      · intro d hd
        simp [hz d hd]
    have hdw : (xs ++ z).dropWhile (fun d => !wsChar d) = z := by
      apply dw_all_head_stop
      · intro y hy; simp [hall y (by simp [hy])]
      · intro d hd
        simp [hz d hd]
    rw [htw, hdw]

theorem tokens_single {c : Chunk} (hne : c ≠ [])
    (hall : ∀ x ∈ c, wsChar x = false) : tokens c = [c] := by
  have := tokens_run_append [] hne hall (by simp)
  simpa using this

/-- Tokens split across a whitespace separator. -/
theorem tokens_append_sep {sep : Char} (hsep : wsChar sep = true) :
    ∀ (n : Nat) (a b : Line), a.length ≤ n →
      tokens (a ++ sep :: b) = tokens a ++ tokens b := by
  intro n
  induction n with
  | zero =>
    intro a b ha
    have : a = [] := List.length_eq_zero.mp (Nat.le_zero.mp ha)
    subst this
    simp [tokens_ws_cons _ hsep, tokens_nil]
  | succ n ih =>
    intro a b ha
    match a with
    | [] => simp [tokens_ws_cons _ hsep, tokens_nil]
    | c :: a2 =>
      by_cases hc : wsChar c = true
      · rw [List.cons_append, tokens_ws_cons _ hc, tokens_ws_cons _ hc]
        exact ih a2 b (by simpa using Nat.le_of_succ_le_succ (by simpa using ha))
      · have hc2 : wsChar c = false := by simpa using hc
        rw [List.cons_append, tokens_cons_nonws _ hc2, tokens_cons_nonws _ hc2]
        by_cases hall : ∀ x ∈ a2, (fun d => !wsChar d) x = true
        · have htw : (a2 ++ sep :: b).takeWhile (fun d => !wsChar d) = a2 :=
            tw_all_head_stop hall
              (by intro d hd; simp at hd; subst hd; simp [hsep])
          have hdw : (a2 ++ sep :: b).dropWhile (fun d => !wsChar d) = sep :: b :=
            dw_all_head_stop hall
              (by intro d hd; simp at hd; subst hd; simp [hsep])
          have htw2 : a2.takeWhile (fun d => !wsChar d) = a2 :=
            List.takeWhile_eq_self_iff.mpr hall
          have hdw2 : a2.dropWhile (fun d => !wsChar d) = [] :=
            List.dropWhile_eq_nil_iff.mpr hall
          rw [htw, hdw, htw2, hdw2, tokens_ws_cons _ hsep]
          simp [tokens_nil]
        · have hne : a2.dropWhile (fun d => !wsChar d) ≠ [] := by
            intro hcon
            exact hall (List.dropWhile_eq_nil_iff.mp hcon)
          rw [tw_append_stop hne, dw_append_stop hne]
          have hlen : (a2.dropWhile (fun d => !wsChar d)).length ≤ n := by
            have h1 := length_dropWhile_le (fun d => !wsChar d) a2
            have h2 : a2.length ≤ n := by
              simpa using Nat.le_of_succ_le_succ (by simpa using ha)
            omega
          rw [ih _ b hlen]
          simp

/-- The convenient form of `tokens_append_sep`. -/
theorem tokens_sep (a b : Line) {sep : Char} (hsep : wsChar sep = true) :
    tokens (a ++ sep :: b) = tokens a ++ tokens b :=
  tokens_append_sep hsep a.length a b (Nat.le_refl _)

/-! ## Munging preserves tokens -/

theorem map_id_of_mem {α : Type} {f : α → α} {l : List α}
    (h : ∀ x ∈ l, f x = x) : l.map f = l := by
  induction l with
  | nil => rfl
  | cons x xs ih =>
    simp only [List.map_cons, h x (by simp)]
    rw [ih (fun y hy => h y (by simp [hy]))]

theorem head_dropWhile_false {α : Type} (p : α → Bool) (l : List α) :
    ∀ d ∈ (l.dropWhile p).head?, p d = false := by
  induction l with
  | nil => simp
  | cons c cs ih =>
    intro d hd
    rw [List.dropWhile_cons] at hd
    split at hd
    · exact ih d hd
    · rename_i hpc
      simp only [List.head?_cons, Option.mem_def, Option.some.injEq] at hd
      subst hd
      simpa using hpc

theorem tokens_map_ws : ∀ (n : Nat) (l : Line), l.length ≤ n →
    tokens (l.map (fun c => if wsChar c then ' ' else c)) = tokens l := by
  intro n
  induction n with
  | zero =>
    intro l hl
    have : l = [] := List.length_eq_zero.mp (Nat.le_zero.mp hl)
    subst this
    rfl
  | succ n ih =>
    intro l hl
    match l with
    | [] => rfl
    | c :: cs =>
      have hcs : cs.length ≤ n := by simpa using Nat.le_of_succ_le_succ (by simpa using hl)
      by_cases hc : wsChar c = true
      · simp only [List.map_cons, if_pos hc]
        rw [tokens_ws_cons _ (by decide : wsChar ' ' = true), tokens_ws_cons _ hc]
        exact ih cs hcs
      · have hc2 : wsChar c = false := by simpa using hc
        simp only [List.map_cons, if_neg (by simp [hc2] : ¬wsChar c = true)]
        rw [tokens_cons_nonws _ hc2, tokens_cons_nonws _ hc2]
        have hqf : ((fun d => !wsChar d) ∘ (fun c => if wsChar c then ' ' else c)) =
            (fun d => !wsChar d) := by
          funext d
          have hsp : wsChar ' ' = true := by decide
          by_cases hd : wsChar d = true <;> simp [hd, hsp]
        rw [List.takeWhile_map, List.dropWhile_map, hqf]
        have hmaptw : (cs.takeWhile (fun d => !wsChar d)).map
            (fun c => if wsChar c then ' ' else c) = cs.takeWhile (fun d => !wsChar d) := by
          apply map_id_of_mem
          intro x hx
          have := List.mem_takeWhile_imp hx
          simp only [Bool.not_eq_true'] at this
          simp [this]
        rw [hmaptw]
        have hlen : (cs.dropWhile (fun d => !wsChar d)).length ≤ n :=
          le_trans (length_dropWhile_le _ _) hcs
        rw [ih _ hlen]

theorem expandTabsAux_nonws : ∀ (a : Line) (col : Nat) (b : Line),
    (∀ x ∈ a, wsChar x = false) →
    expandTabsAux col (a ++ b) = a ++ expandTabsAux (col + a.length) b := by
  intro a
  induction a with
  | nil => intro col b _; simp
  | cons c a2 ih =>
    intro col b h
    have hc : wsChar c = false := h c (by simp)
    have htab : ¬(c = '\t') := by
      intro hcon; subst hcon; simp [wsChar] at hc
    have hnl : ¬((c = '\n' || c = '\r') = true) := by
      simp only [Bool.or_eq_true, decide_eq_true_eq]
      rintro (hcon | hcon) <;> (subst hcon; simp [wsChar] at hc)
    simp only [List.cons_append, expandTabsAux, if_neg (by simpa using htab),
      if_neg hnl, List.append_eq]
    rw [ih (col + 1) b (fun y hy => h y (by simp [hy]))]
    have harith : col + 1 + a2.length = col + (c :: a2).length := by
      simp only [List.length_cons]
      omega
    rw [harith]

theorem expandTabsAux_head_ws (col : Nat) (l : Line)
    (h : ∀ e ∈ l.head?, wsChar e = true) :
    ∀ e ∈ (expandTabsAux col l).head?, wsChar e = true := by
  match l with
  | [] => intro e he; simp [expandTabsAux] at he
  | c :: cs =>
    by_cases htab : c = '\t'
    · subst htab
      have hE : expandTabsAux col ('\t' :: cs) =
          List.replicate (8 - col % 8) ' ' ++
            expandTabsAux (col + (8 - col % 8)) cs := by
        simp [expandTabsAux]
      have hk : 8 - col % 8 = (8 - col % 8 - 1) + 1 := by omega
      intro e he
      rw [hE, hk, List.replicate_succ] at he
      simp only [List.cons_append, List.head?_cons, Option.mem_def,
        Option.some.injEq] at he
      subst he
      decide
    · by_cases hnl : (c = '\n' || c = '\r') = true
      · have hE : expandTabsAux col (c :: cs) = c :: expandTabsAux 0 cs := by
          simp only [expandTabsAux, if_neg (by simpa using htab), if_pos hnl]
        intro e he
        rw [hE] at he
        simp only [List.head?_cons, Option.mem_def, Option.some.injEq] at he
        subst he
        exact h c (by simp)
      · have hE : expandTabsAux col (c :: cs) = c :: expandTabsAux (col + 1) cs := by
          simp only [expandTabsAux, if_neg (by simpa using htab), if_neg hnl]
        intro e he
        rw [hE] at he
        simp only [List.head?_cons, Option.mem_def, Option.some.injEq] at he
        subst he
        exact h c (by simp)

theorem tokens_expandTabs : ∀ (n : Nat) (l : Line) (col : Nat), l.length ≤ n →
    tokens (expandTabsAux col l) = tokens l := by
  intro n
  induction n with
  | zero =>
    intro l col hl
    have : l = [] := List.length_eq_zero.mp (Nat.le_zero.mp hl)
    subst this
    rfl
  | succ n ih =>
    intro l col hl
    match l with
    | [] => rfl
    | c :: cs =>
      have hcs : cs.length ≤ n := by simpa using Nat.le_of_succ_le_succ (by simpa using hl)
      by_cases htab : c = '\t'
      · subst htab
        have hE : expandTabsAux col ('\t' :: cs) =
            List.replicate (8 - col % 8) ' ' ++
              expandTabsAux (col + (8 - col % 8)) cs := by
          simp [expandTabsAux]
        rw [hE]
        rw [tokens_ws_append _ (by
          simp only [allWs, List.all_eq_true]
          intro x hx
          have hrep := List.eq_of_mem_replicate hx
          subst hrep
          decide)]
        rw [ih cs _ hcs, tokens_ws_cons _ (by decide : wsChar '\t' = true)]
      · by_cases hnl : (c = '\n' || c = '\r') = true
        · have hwsc : wsChar c = true := by
            simp only [Bool.or_eq_true, decide_eq_true_eq] at hnl
            rcases hnl with h | h <;> (subst h; decide)
          have hE : expandTabsAux col (c :: cs) = c :: expandTabsAux 0 cs := by
            simp only [expandTabsAux, if_neg (by simpa using htab), if_pos hnl]
          rw [hE, tokens_ws_cons _ hwsc, tokens_ws_cons _ hwsc]
          exact ih cs 0 hcs
        · have hE : expandTabsAux col (c :: cs) =
              c :: expandTabsAux (col + 1) cs := by
            simp only [expandTabsAux, if_neg (by simpa using htab), if_neg hnl]
          rw [hE]
          by_cases hws : wsChar c = true
          · rw [tokens_ws_cons _ hws, tokens_ws_cons _ hws]
            exact ih cs _ hcs
          · have hc2 : wsChar c = false := by simpa using hws
            rw [tokens_cons_nonws _ hc2, tokens_cons_nonws _ hc2]
            have hsplitcs := List.takeWhile_append_dropWhile (fun d => !wsChar d) cs
            have htwall : ∀ x ∈ cs.takeWhile (fun d => !wsChar d),
                wsChar x = false := by
              intro x hx
              have := List.mem_takeWhile_imp hx
              simpa using this
            have hE : expandTabsAux (col + 1) cs =
                cs.takeWhile (fun d => !wsChar d) ++
                  expandTabsAux (col + 1 + (cs.takeWhile (fun d => !wsChar d)).length)
                    (cs.dropWhile (fun d => !wsChar d)) := by
              conv_lhs => rw [← hsplitcs]
              exact expandTabsAux_nonws _ _ _ htwall
            rw [hE]
            have hheadws : ∀ d ∈ (expandTabsAux
                (col + 1 + (cs.takeWhile (fun d => !wsChar d)).length)
                (cs.dropWhile (fun d => !wsChar d))).head?, wsChar d = true := by
              apply expandTabsAux_head_ws
              intro d hd
              have := head_dropWhile_false (fun d => !wsChar d) cs d hd
              simpa using this
            have htw : (cs.takeWhile (fun d => !wsChar d) ++
                expandTabsAux (col + 1 + (cs.takeWhile (fun d => !wsChar d)).length)
                  (cs.dropWhile (fun d => !wsChar d))).takeWhile (fun d => !wsChar d) =
                cs.takeWhile (fun d => !wsChar d) := by
              apply tw_all_head_stop
              · intro x hx
                simp [htwall x hx]
              · intro d hd
                simp [hheadws d hd]
            have hdw : (cs.takeWhile (fun d => !wsChar d) ++
                expandTabsAux (col + 1 + (cs.takeWhile (fun d => !wsChar d)).length)
                  (cs.dropWhile (fun d => !wsChar d))).dropWhile (fun d => !wsChar d) =
                expandTabsAux (col + 1 + (cs.takeWhile (fun d => !wsChar d)).length)
                  (cs.dropWhile (fun d => !wsChar d)) := by
              apply dw_all_head_stop
              · intro x hx
                simp [htwall x hx]
              · intro d hd
                simp [hheadws d hd]
            rw [htw, hdw]
            have hlen : (cs.dropWhile (fun d => !wsChar d)).length ≤ n :=
              le_trans (length_dropWhile_le _ _) hcs
            rw [ih _ _ hlen]

/-- `_munge_whitespace` does not change the token list. -/
theorem tokens_munge (l : Line) : tokens (munge l) = tokens l := by
  unfold munge
  rw [tokens_map_ws (expandTabsAux 0 l).length _ (Nat.le_refl _)]
  rw [tokens_expandTabs l.length l 0 (Nat.le_refl _)]

/-! ## Structure of chunk lists -/

/-- Every chunk is nonempty and homogeneous. -/
def ChunkHomog (cs : List Chunk) : Prop :=
  ∀ c ∈ cs, c ≠ [] ∧ (isWsChunk c = true ∨ c.all (fun ch => !wsChar ch) = true)

/-- No two adjacent chunks are both words. -/
def ChunkAlt (cs : List Chunk) : Prop :=
  List.Chain' (fun a b => isWsChunk a = true ∨ isWsChunk b = true) cs

theorem chunkify_props : ∀ (n : Nat) (l : Line), l.length ≤ n →
    ChunkHomog (chunkify l) ∧ ChunkAlt (chunkify l) := by
  intro n
  induction n with
  | zero =>
    intro l hl
    have : l = [] := List.length_eq_zero.mp (Nat.le_zero.mp hl)
    subst this
    exact ⟨by intro c hc; simp [chunkify] at hc, by simp [chunkify, ChunkAlt]⟩
  | succ n ih =>
    intro l hl
    match l with
    | [] => exact ⟨by intro c hc; simp [chunkify] at hc, by simp [chunkify, ChunkAlt]⟩
    | c :: cs =>
      have hcs : cs.length ≤ n := by simpa using Nat.le_of_succ_le_succ (by simpa using hl)
      have hdlen : (cs.dropWhile (fun d => wsChar d == wsChar c)).length ≤ n :=
        le_trans (length_dropWhile_le _ _) hcs
      have hih := ih _ hdlen
      have hheadfact : c :: cs.takeWhile (fun d => wsChar d == wsChar c) ≠ [] ∧
          (isWsChunk (c :: cs.takeWhile (fun d => wsChar d == wsChar c)) = true ∨
           (c :: cs.takeWhile (fun d => wsChar d == wsChar c)).all
             (fun ch => !wsChar ch) = true) := by
        refine ⟨List.cons_ne_nil _ _, ?_⟩
        by_cases hws : wsChar c = true
        · left
          simp only [isWsChunk, List.all_cons, hws, Bool.true_and, List.all_eq_true]
          intro x hx
          have hmem := List.mem_takeWhile_imp hx
          simpa using hmem
        · right
          have hc2 : wsChar c = false := by simpa using hws
          simp only [List.all_cons, hc2, Bool.not_false, Bool.true_and,
            List.all_eq_true]
          intro x hx
          have hmem := List.mem_takeWhile_imp hx
          simp only [beq_iff_eq] at hmem
          simp [hmem]
      constructor
      · rw [chunkify_cons]
        intro ck hck
        rcases List.mem_cons.mp hck with hck | hck
        · subst hck
          exact hheadfact
        · exact hih.1 ck hck
      · rw [chunkify_cons]
        rw [ChunkAlt, List.chain'_cons']
        refine ⟨?_, hih.2⟩
        intro y hy
        rcases hdp : cs.dropWhile (fun d => wsChar d == wsChar c) with _ | ⟨d, ds⟩
        · rw [hdp] at hy
          simp [chunkify] at hy
        · rw [hdp, chunkify_cons] at hy
          simp only [List.head?_cons, Option.mem_def, Option.some.injEq] at hy
          subst hy
          have hdfail : (wsChar d == wsChar c) = false := by
            have := head_dropWhile_false (fun x => wsChar x == wsChar c) cs
            rw [hdp] at this
            exact this d (by simp)
          by_cases hws : wsChar c = true
          · left
            rcases hheadfact.2 with hl2 | hl2
            · exact hl2
            · exfalso
              simp only [List.all_cons, Bool.and_eq_true] at hl2
              rw [hws] at hl2
              simpa using hl2.1
          · right
            have hc2 : wsChar c = false := by simpa using hws
            have hd : wsChar d = true := by
              rw [hc2] at hdfail
              simpa using hdfail
            simp only [isWsChunk, List.all_cons, hd, Bool.true_and,
              List.all_eq_true]
            intro x hx
            have hmem := List.mem_takeWhile_imp hx
            simpa using hmem

theorem chunkify_homog (l : Line) : ChunkHomog (chunkify l) :=
  (chunkify_props l.length l (Nat.le_refl _)).1

theorem chunkify_alt (l : Line) : ChunkAlt (chunkify l) :=
  (chunkify_props l.length l (Nat.le_refl _)).2

/-! ## The wrap loop: width and token accounting -/

theorem sumLenI_eq (cs : List Chunk) :
    sumLenI cs = ((cs.map List.length).sum : Int) := by
  unfold sumLenI
  rw [Nat.cast_list_sum, List.map_map]
  rfl

theorem dropTrailWs_single {d : Chunk} (h : dropTrailWs [d] ≠ []) :
    dropTrailWs [d] = [d] ∧ isWsChunk d = false := by
  rcases dropTrailWs_shape [d] with hs | ⟨c, hc, hws⟩
  · refine ⟨hs, ?_⟩
    by_cases hd : isWsChunk d = true
    · exfalso
      apply h
      simp [dropTrailWs, hd]
    · simpa using hd
  · exfalso
    rcases List.append_eq_cons_iff.mp hc.symm with ⟨h1, _⟩ | ⟨as, h1, _⟩
    · rw [h1] at hc
      simp only [List.nil_append, List.cons.injEq] at hc
      exact h (by rw [h1])
    · have := congrArg List.length hc
      simp only [List.length_cons, List.length_append, List.length_nil] at this
      have h2 := congrArg List.length h1
      simp only [List.length_cons] at h2
      omega

/-- Every line emitted by the wrap loop is within `maxW`, or consists of one
of the two indents followed by a single nonempty whitespace-free chunk. -/
theorem wrapLoopF_width (maxW : Nat) (ii si : Line) :
    ∀ (fuel : Nat) (chunks : List Chunk) (hasLines : Bool),
      chunks.length < fuel → ChunkHomog chunks →
      ∀ l ∈ wrapLoopF maxW ii si fuel chunks hasLines,
        l.length ≤ maxW ∨
        ∃ c, (l = ii ++ c ∨ l = si ++ c) ∧ c ≠ [] ∧
          c.all (fun ch => !wsChar ch) = true := by
  intro fuel
  induction fuel with
  | zero => intro chunks hasLines hf; exact absurd hf (Nat.not_lt_zero _)
  | succ fuel ih =>
    intro chunks hasLines hf hhom l hl
    rcases chunks with _ | ⟨c, cs⟩
    · simp [wrapLoopF] at hl
    · simp only [wrapLoopF] at hl
      set ind := (if hasLines then si else ii) with hind
      set w : Int := (maxW : Int) - (ind.length : Int) with hw
      set ch1 := (if hasLines && isWsChunk c then cs else c :: cs) with hch1
      set q := lineAttempt w ch1 with hqdef
      set cur := dropTrailWs q.1 with hcur
      have hch1sub : ∀ x ∈ ch1, x ∈ c :: cs := by
        intro x hx
        rw [hch1] at hx
        split at hx
        · exact List.mem_cons_of_mem _ hx
        · exact hx
      have hch1len : ch1.length ≤ cs.length + 1 := by
        rw [hch1]
        split
        · exact Nat.le_succ _
        · simp [List.length_cons]
      have hq2len : q.2.length < fuel := by
        have hlt : (c :: cs).length < fuel + 1 := hf
        simp only [List.length_cons] at hlt
        by_cases hne : ch1 = []
        · rw [hqdef, hne]
          have hred : (lineAttempt w []).2 = [] := rfl
          rw [hred]
          simp only [List.length_nil]
          omega
        · have := lineAttempt_consume w hne
          rw [← hqdef] at this
          omega
      have hq2sub : ∀ x ∈ q.2, x ∈ c :: cs := by
        intro x hx
        apply hch1sub
        have := lineAttempt_append w ch1
        rw [← hqdef] at this
        rw [← this]
        exact List.mem_append_right _ hx
      have hq1sub : ∀ x ∈ q.1, x ∈ c :: cs := by
        intro x hx
        apply hch1sub
        have := lineAttempt_append w ch1
        rw [← hqdef] at this
        rw [← this]
        exact List.mem_append_left _ hx
      have hhom2 : ChunkHomog q.2 := fun x hx => hhom x (hq2sub x hx)
      have hindcase : ind = ii ∨ ind = si := by
        rw [hind]
        cases hasLines
        · simp
        · simp
      split at hl
      · exact ih q.2 hasLines hq2len hhom2 l hl
      · rename_i hcurne
        rcases List.mem_cons.mp hl with hl | hl
        · subst hl
          rcases lineAttempt_shape w ch1 with hsh | hsh | ⟨d, hsh⟩
          · exfalso
            apply hcurne
            rw [hcur, hqdef, hsh]
            rfl
          · left
            have h1 : sumLenI cur ≤ sumLenI q.1 := by
              rw [hcur]
              exact sumLenI_dropTrailWs q.1
            have h2 : sumLenI q.1 ≤ w := by
              rw [hqdef]
              exact hsh
            have hsum : sumLenI cur ≤ w := le_trans h1 h2
            rw [List.length_append, List.length_flatten]
            have hs := sumLenI_eq cur
            rw [hw] at hsum
            have hcast : ((cur.map List.length).sum : Int) ≤
                (maxW : Int) - (ind.length : Int) := by
              rw [← hs]
              exact hsum
            omega
          · have hq1 : q.1 = [d] := by rw [hqdef]; exact hsh
            have hcur2 : cur = [d] ∧ isWsChunk d = false := by
              rw [hcur, hq1]
              apply dropTrailWs_single
              rw [← hq1, ← hcur]
              simpa [List.isEmpty_iff] using hcurne
            right
            have hdmem : d ∈ c :: cs := hq1sub d (by rw [hq1]; simp)
            have hdhom := hhom d hdmem
            refine ⟨d, ?_, hdhom.1, ?_⟩
            · rw [hcur2.1]
              simp only [List.flatten_cons, List.flatten_nil, List.append_nil]
              rcases hindcase with h | h <;> [exact Or.inl (by rw [h]);
                exact Or.inr (by rw [h])]
            · rcases hdhom.2 with hws | hnws
              · exact absurd hws (by simp [hcur2.2])
              · exact hnws
        · exact ih q.2 true hq2len hhom2 l hl

theorem not_ws_chunk {c : Chunk} (hne : c ≠ [])
    (h : c.all (fun ch => !wsChar ch) = true) : isWsChunk c = false := by
  match c with
  | [] => exact absurd rfl hne
  | x :: xs =>
    simp only [List.all_cons, Bool.and_eq_true, Bool.not_eq_true'] at h
    simp [isWsChunk, h.1]

/-- Joining an alternating, homogeneous chunk list yields exactly its word
chunks as tokens. -/
theorem tokens_flatten_alt : ∀ (cs : List Chunk), ChunkHomog cs → ChunkAlt cs →
    tokens cs.flatten = wordChunks cs := by
  intro cs
  induction cs with
  | nil => intro _ _; rfl
  | cons c rest ih =>
    intro hhom halt
    have hc := hhom c (by simp)
    have hhomr : ChunkHomog rest := fun x hx => hhom x (by simp [hx])
    have haltr : ChunkAlt rest := (List.chain'_cons'.mp halt).2
    rcases hc.2 with hws | hnws
    · rw [List.flatten_cons, tokens_ws_append _ (by simpa [allWs, isWsChunk] using hws)]
      rw [ih hhomr haltr]
      simp [wordChunks, List.filter_cons, hws]
    · have hcws : isWsChunk c = false := not_ws_chunk hc.1 hnws
      rw [List.flatten_cons]
      have hz : ∀ d ∈ rest.flatten.head?, wsChar d = true := by
        cases rest with
        | nil => simp
        | cons e es =>
          have hrel := (List.chain'_cons'.mp halt).1 e (by simp)
          have hews : isWsChunk e = true := by
            rcases hrel with hb | hb
            · rw [hcws] at hb
              exact absurd hb (by simp)
            · exact hb
          have hene : e ≠ [] := (hhomr e (by simp)).1
          intro d hd
          rw [List.flatten_cons, List.head?_append] at hd
          match e, hene with
          | f :: fs, _ =>
            simp only [List.head?_cons, Option.or_some, Option.mem_def,
              Option.some.injEq] at hd
            subst hd
            simp only [isWsChunk, List.all_cons, Bool.and_eq_true] at hews
            exact hews.1
      rw [tokens_run_append _ hc.1
        (by intro x hx
            have := List.all_eq_true.mp hnws x hx
            simpa using this) hz]
      rw [ih hhomr haltr]
      simp [wordChunks, List.filter_cons, hcws]

/-- The wrap loop emits exactly the word chunks of its input as tokens, when
both indents are all-whitespace. -/
theorem wrapLoopF_tokens (maxW : Nat) (ii si : Line)
    (hii : allWs ii = true) (hsi : allWs si = true) :
    ∀ (fuel : Nat) (chunks : List Chunk) (hasLines : Bool),
      chunks.length < fuel → ChunkHomog chunks → ChunkAlt chunks →
      tokensAll (wrapLoopF maxW ii si fuel chunks hasLines) = wordChunks chunks := by
  intro fuel
  induction fuel with
  | zero => intro chunks hasLines hf; exact absurd hf (Nat.not_lt_zero _)
  | succ fuel ih =>
    intro chunks hasLines hf hhom halt
    rcases chunks with _ | ⟨c, cs⟩
    · rfl
    · simp only [wrapLoopF]
      set ind := (if hasLines then si else ii) with hind
      set w : Int := (maxW : Int) - (ind.length : Int) with hw
      set ch1 := (if hasLines && isWsChunk c then cs else c :: cs) with hch1
      set q := lineAttempt w ch1 with hqdef
      set cur := dropTrailWs q.1 with hcur
      have hsplit : q.1 ++ q.2 = ch1 := by
        rw [hqdef]
        exact lineAttempt_append w ch1
      have hch1sub : ∀ x ∈ ch1, x ∈ c :: cs := by
        intro x hx
        rw [hch1] at hx
        split at hx
        · exact List.mem_cons_of_mem _ hx
        · exact hx
      have hch1len : ch1.length ≤ cs.length + 1 := by
        rw [hch1]
        split
        · exact Nat.le_succ _
        · simp [List.length_cons]
      have hq2len : q.2.length < fuel := by
        have hlt : (c :: cs).length < fuel + 1 := hf
        simp only [List.length_cons] at hlt
        by_cases hne : ch1 = []
        · rw [hqdef, hne]
          have hred : (lineAttempt w []).2 = [] := rfl
          rw [hred]
          simp only [List.length_nil]
          omega
        · have := lineAttempt_consume w hne
          rw [← hqdef] at this
          omega
      have hch1hom : ChunkHomog ch1 := fun x hx => hhom x (hch1sub x hx)
      have hch1alt : ChunkAlt ch1 := by
        rw [hch1]
        split
        · exact (List.chain'_cons'.mp halt).2
        · exact halt
      have hq1hom : ChunkHomog q.1 := by
        intro x hx
        exact hch1hom x (by rw [← hsplit]; exact List.mem_append_left _ hx)
      have hq2hom : ChunkHomog q.2 := by
        intro x hx
        exact hch1hom x (by rw [← hsplit]; exact List.mem_append_right _ hx)
      have hq1alt : ChunkAlt q.1 := by
        have := hch1alt
        rw [← hsplit] at this
        exact (List.chain'_append.mp this).1
      have hq2alt : ChunkAlt q.2 := by
        have := hch1alt
        rw [← hsplit] at this
        exact (List.chain'_append.mp this).2.1
      have hwc1 : wordChunks (c :: cs) = wordChunks ch1 := by
        rw [hch1]
        split
        · rename_i hpre
          simp only [Bool.and_eq_true] at hpre
          simp [wordChunks, List.filter_cons, hpre.2]
        · rfl
      have hwcsplit : wordChunks ch1 = wordChunks q.1 ++ wordChunks q.2 := by
        rw [← hsplit, wordChunks_append]
      have hcurwc : wordChunks cur = wordChunks q.1 := by
        rw [hcur]
        exact wordChunks_dropTrailWs q.1
      have hcurhom : ChunkHomog cur := by
        intro x hx
        apply hq1hom
        rcases dropTrailWs_shape q.1 with hs | ⟨e, he, _⟩
        · rw [hcur, hs] at hx
          exact hx
        · rw [he]
          apply List.mem_append_left
          rw [← hcur]
          exact hx
      have hcuralt : ChunkAlt cur := by
        rcases dropTrailWs_shape q.1 with hs | ⟨e, he, _⟩
        · rw [hcur, hs]
          exact hq1alt
        · have halt1 := hq1alt
          rw [he] at halt1
          have := (List.chain'_append.mp halt1).1
          rw [← hcur] at this
          exact this
      split
      · rename_i hempty
        rw [ih q.2 hasLines hq2len hq2hom hq2alt]
        have hnil : wordChunks q.1 = [] := by
          rw [← hcurwc]
          rw [List.isEmpty_iff] at hempty
          rw [hempty]
          rfl
        rw [hwc1, hwcsplit, hnil, List.nil_append]
      · rename_i hempty
        have hindws : allWs ind = true := by
          rw [hind]
          cases hasLines
          · simpa using hii
          · simpa using hsi
        rw [tokensAll, List.flatMap_cons, ← tokensAll]
        rw [ih q.2 true hq2len hq2hom hq2alt]
        rw [tokens_ws_append _ hindws]
        rw [tokens_flatten_alt cur hcurhom hcuralt]
        rw [hcurwc, hwc1, hwcsplit]

/-! ## pyWrap wrappers -/

theorem pyWrap_width {maxW : Nat} {ii si text : Line} {out : List Line}
    (h : pyWrap maxW ii si text = some out) :
    ∀ l ∈ out, l.length ≤ maxW ∨
      ∃ c, (l = ii ++ c ∨ l = si ++ c) ∧ c ≠ [] ∧
        c.all (fun ch => !wsChar ch) = true := by
  unfold pyWrap at h
  split at h
  · exact absurd h (by simp)
  · simp only [Option.some.injEq] at h
    subst h
    exact wrapLoopF_width maxW ii si _ _ false (Nat.lt_succ_self _)
      (chunkify_homog _)

theorem pyWrap_tokens {maxW : Nat} {ii si text : Line} {out : List Line}
    (hii : allWs ii = true) (hsi : allWs si = true)
    (h : pyWrap maxW ii si text = some out) :
    tokensAll out = tokens text := by
  unfold pyWrap at h
  split at h
  · exact absurd h (by simp)
  · simp only [Option.some.injEq] at h
    subst h
    rw [wrapLoopF_tokens maxW ii si hii hsi _ _ false (Nat.lt_succ_self _)
      (chunkify_homog _) (chunkify_alt _)]
    exact (tokens_munge text).symm ▸ rfl

/-! ## Marker and indent parsing -/

theorem ws_char_cases {c : Char} (h : wsChar c = true) :
    c = ' ' ∨ c = '\t' ∨ c = '\n' ∨ c = '\r' ∨
      c = Char.ofNat 11 ∨ c = Char.ofNat 12 := by
  simp only [wsChar, Bool.or_eq_true, decide_eq_true_eq] at h
  tauto

theorem digit19_nonws {c : Char} (h : digit19 c = true) : wsChar c = false := by
  by_contra hcon
  have hws : wsChar c = true := by simpa using hcon
  rcases ws_char_cases hws with h1|h1|h1|h1|h1|h1 <;>
    (subst h1; exact absurd h (by decide))

theorem digit09_nonws {c : Char} (h : digit09 c = true) : wsChar c = false := by
  by_contra hcon
  have hws : wsChar c = true := by simpa using hcon
  rcases ws_char_cases hws with h1|h1|h1|h1|h1|h1 <;>
    (subst h1; exact absurd h (by decide))

theorem alpha_nonws {c : Char} (h : alphaChar c = true) : wsChar c = false := by
  by_contra hcon
  have hws : wsChar c = true := by simpa using hcon
  rcases ws_char_cases hws with h1|h1|h1|h1|h1|h1 <;>
    (subst h1; exact absurd h (by decide))

theorem dotParen_nonws {c : Char} (h : dotParen c = true) : wsChar c = false := by
  simp only [dotParen, Bool.or_eq_true, decide_eq_true_eq] at h
  rcases h with h | h <;> (subst h; decide)

theorem bullet_nonws {c : Char} (h : c = '*' ∨ c = '-') : wsChar c = false := by
  rcases h with h | h <;> (subst h; decide)

/-- The shapes the head of a list marker can take. -/
inductive HeadShape : Line → Prop where
  | bullet (c : Char) (h : c = '*' ∨ c = '-') : HeadShape [c]
  | two (c p : Char) (h : digit19 c = true ∨ alphaChar c = true)
      (hp : dotParen p = true) : HeadShape [c, p]
  | three (c d p : Char) (hc : digit19 c = true) (hd : digit09 d = true)
      (hp : dotParen p = true) : HeadShape [c, d, p]

theorem headShape_head_nonws {hd : Line} (h : HeadShape hd) :
    ∀ e ∈ hd.head?, wsChar e = false := by
  intro e he
  cases h with
  | bullet c hc =>
    simp only [List.head?_cons, Option.mem_def, Option.some.injEq] at he
    subst he
    exact bullet_nonws hc
  | two c p hc hp =>
    simp only [List.head?_cons, Option.mem_def, Option.some.injEq] at he
    subst he
    rcases hc with hc | hc
    · exact digit19_nonws hc
    · exact alpha_nonws hc
  | three c d p hc hdp hp =>
    simp only [List.head?_cons, Option.mem_def, Option.some.injEq] at he
    subst he
    exact digit19_nonws hc

/-- A well-formed marker: its head followed by nonempty whitespace. -/
def MkOK (mk : Line) : Prop :=
  mk = [] ∨ ∃ hd w, mk = hd ++ w ∧ HeadShape hd ∧ w ≠ [] ∧ allWs w = true

theorem mkOK_head_nonws {mk : Line} (h : MkOK mk) (hne : mk ≠ []) :
    ∀ e ∈ mk.head?, wsChar e = false := by
  rcases h with h | ⟨hd, w, hmk, hs, hwne, hw⟩
  · exact absurd h hne
  · intro e he
    subst hmk
    cases hs with
    | bullet c hc =>
      simp only [List.cons_append, List.head?_cons, Option.mem_def,
        Option.some.injEq] at he
      subst he
      exact bullet_nonws hc
    | two c p hc hp =>
      simp only [List.cons_append, List.head?_cons, Option.mem_def,
        Option.some.injEq] at he
      subst he
      rcases hc with hc | hc
      · exact digit19_nonws hc
      · exact alpha_nonws hc
    | three c d p hc hdp hp =>
      simp only [List.cons_append, List.head?_cons, Option.mem_def,
        Option.some.injEq] at he
      subst he
      exact digit19_nonws hc

theorem markerHead_sound : ∀ {l : Line} {n : Nat}, markerHead l = some n →
    HeadShape (l.take n) ∧ n ≤ l.length := by
  intro l n h
  match l with
  | [] => simp [markerHead] at h
  | c :: r0 =>
    by_cases hb : (c = '*' || c = '-') = true
    · have hE : markerHead (c :: r0) = some 1 := by
        simp only [markerHead, if_pos hb]
      rw [hE] at h
      simp only [Option.some.injEq] at h
      subst h
      refine ⟨?_, by simp⟩
      have hc : c = '*' ∨ c = '-' := by simpa using hb
      simpa using HeadShape.bullet c hc
    · by_cases hd19 : digit19 c = true
      · match r0 with
        | [] =>
          have hE : markerHead [c] = none := by
            simp only [markerHead, if_neg hb, if_pos hd19]
          rw [hE] at h
          cases h
        | [d] =>
          by_cases hdp : dotParen d = true
          · have hE : markerHead [c, d] = some 2 := by
              simp only [markerHead, if_neg hb, if_pos hd19, if_pos hdp]
            rw [hE] at h
            simp only [Option.some.injEq] at h
            subst h
            refine ⟨?_, by simp⟩
            simpa using HeadShape.two c d (Or.inl hd19) hdp
          · have hE : markerHead [c, d] = none := by
              simp only [markerHead, if_neg hb, if_pos hd19, if_neg hdp]
            rw [hE] at h
            cases h
        | d :: p :: r2 =>
          by_cases hc3 : (digit09 d && dotParen p) = true
          · have hE : markerHead (c :: d :: p :: r2) = some 3 := by
              simp only [markerHead, if_neg hb, if_pos hd19, if_pos hc3]
            rw [hE] at h
            simp only [Option.some.injEq] at h
            subst h
            rw [Bool.and_eq_true] at hc3
            refine ⟨?_, by simp⟩
            simpa using HeadShape.three c d p hd19 hc3.1 hc3.2
          · by_cases hdp : dotParen d = true
            · have hE : markerHead (c :: d :: p :: r2) = some 2 := by
                simp only [markerHead, if_neg hb, if_pos hd19, if_neg hc3,
                  if_pos hdp]
              rw [hE] at h
              simp only [Option.some.injEq] at h
              subst h
              refine ⟨?_, by simp⟩
              simpa using HeadShape.two c d (Or.inl hd19) hdp
            · have hE : markerHead (c :: d :: p :: r2) = none := by
                simp only [markerHead, if_neg hb, if_pos hd19, if_neg hc3,
                  if_neg hdp]
              rw [hE] at h
              cases h
      · by_cases hal : alphaChar c = true
        · match r0 with
          | [] =>
            have hE : markerHead [c] = none := by
              simp only [markerHead, if_neg hb, if_neg hd19, if_pos hal]
            rw [hE] at h
            cases h
          | p :: r1 =>
            by_cases hdp : dotParen p = true
            · have hE : markerHead (c :: p :: r1) = some 2 := by
                simp only [markerHead, if_neg hb, if_neg hd19, if_pos hal,
                  if_pos hdp]
              rw [hE] at h
              simp only [Option.some.injEq] at h
              subst h
              refine ⟨?_, by simp⟩
              simpa using HeadShape.two c p (Or.inr hal) hdp
            · have hE : markerHead (c :: p :: r1) = none := by
                simp only [markerHead, if_neg hb, if_neg hd19, if_pos hal,
                  if_neg hdp]
              rw [hE] at h
              cases h
        · have hE : markerHead (c :: r0) = none := by
            simp only [markerHead, if_neg hb, if_neg hd19, if_neg hal]
          rw [hE] at h
          cases h

theorem matchMarker_sound {l mk rest : Line} (h : matchMarker l = some (mk, rest)) :
    (∃ hd w, mk = hd ++ w ∧ HeadShape hd ∧ w ≠ [] ∧ allWs w = true) ∧
      l = mk ++ rest ∧ (∀ d ∈ rest.head?, wsChar d = false) := by
  unfold matchMarker at h
  rcases hmh : markerHead l with _ | n
  · rw [hmh] at h
    simp at h
  · rw [hmh] at h
    dsimp only at h
    split at h
    · simp at h
    · rename_i hwne
      simp only [Option.some.injEq, Prod.mk.injEq] at h
      obtain ⟨hmk, hrest⟩ := h
      have hshape : HeadShape (l.take n) ∧ n ≤ l.length := markerHead_sound hmh
      refine ⟨⟨l.take n, (l.drop n).takeWhile wsChar, hmk.symm, hshape.1, ?_, ?_⟩,
        ?_, ?_⟩
      · intro hcon
        rw [hcon] at hwne
        simp at hwne
      · simp only [allWs, List.all_eq_true]
        intro x hx
        exact List.mem_takeWhile_imp hx
      · rw [← hmk, ← hrest]
        rw [List.append_assoc, drop_len_takeWhile,
          List.takeWhile_append_dropWhile]
        exact (List.take_append_drop n l).symm
      · rw [← hrest, drop_len_takeWhile]
        exact head_dropWhile_false wsChar (l.drop n)

theorem mem_of_head_opt {α : Type} {l : List α} {e : α} (h : e ∈ l.head?) :
    e ∈ l := by
  cases l with
  | nil => simp at h
  | cons x xs =>
    simp only [List.head?_cons, Option.mem_def, Option.some.injEq] at h
    subst h
    simp

theorem not_bullet_of_digit19 {c : Char} (h : digit19 c = true) :
    (c = '*' || c = '-') = false := by
  by_contra hcon
  have hb : (c = '*' || c = '-') = true := by
    cases h2 : (c = '*' || c = '-')
    · exact absurd h2 hcon
    · rfl
  simp only [Bool.or_eq_true, decide_eq_true_eq] at hb
  rcases hb with h1 | h1 <;> (subst h1; exact absurd h (by decide))

theorem not_bullet_of_alpha {c : Char} (h : alphaChar c = true) :
    (c = '*' || c = '-') = false := by
  by_contra hcon
  have hb : (c = '*' || c = '-') = true := by
    cases h2 : (c = '*' || c = '-')
    · exact absurd h2 hcon
    · rfl
  simp only [Bool.or_eq_true, decide_eq_true_eq] at hb
  rcases hb with h1 | h1 <;> (subst h1; exact absurd h (by decide))

theorem dotParen_not_digit09 {p : Char} (h : dotParen p = true) :
    digit09 p = false := by
  simp only [dotParen, Bool.or_eq_true, decide_eq_true_eq] at h
  rcases h with h1 | h1 <;> (subst h1; decide)

theorem matchMarker_extend {hd w : Line} (hs : HeadShape hd) (hwne : w ≠ [])
    (hw : allWs w = true) (z : Line) (hz : ∀ d ∈ z.head?, wsChar d = false) :
    matchMarker (hd ++ w ++ z) = some (hd ++ w, z) := by
  have hmh : markerHead (hd ++ (w ++ z)) = some hd.length := by
    cases hs with
    | bullet c hc =>
      have hb : (c = '*' || c = '-') = true := by
        rcases hc with h1 | h1 <;> simp [h1]
      simp only [List.cons_append, markerHead, if_pos hb, List.length_cons,
        List.length_nil]
    | two c p hc hp =>
      by_cases hd19 : digit19 c = true
      · have hb : (c = '*' || c = '-') = false := not_bullet_of_digit19 hd19
        have h09 : digit09 p = false := dotParen_not_digit09 hp
        match w, hwne with
        | w0 :: w1, _ =>
          have h1 : ¬((c = '*' || c = '-') = true) := by rw [hb]; simp
          have h2 : ¬((digit09 p && dotParen w0) = true) := by
            rw [h09]; simp
          simp [markerHead, h1, hd19, h2, hp]
      · have halpha : alphaChar c = true := by
          rcases hc with h1 | h1
          · exact absurd h1 hd19
          · exact h1
        have hb : (c = '*' || c = '-') = false := not_bullet_of_alpha halpha
        have h1 : ¬((c = '*' || c = '-') = true) := by rw [hb]; simp
        simp [markerHead, h1, hd19, halpha, hp]
    | three c d p hc hdd hp =>
      have hb : (c = '*' || c = '-') = false := not_bullet_of_digit19 hc
      have h1 : ¬((c = '*' || c = '-') = true) := by rw [hb]; simp
      have hcond : (digit09 d && dotParen p) = true := by simp [hdd, hp]
      simp [markerHead, h1, hc, hcond]
  have hgoal : matchMarker (hd ++ (w ++ z)) = some (hd ++ w, z) := by
    unfold matchMarker
    rw [hmh]
    dsimp only
    rw [List.drop_left, List.take_left]
    have htw : (w ++ z).takeWhile wsChar = w := by
      apply tw_all_head_stop
      · intro x hx
        exact List.all_eq_true.mp hw x hx
      · exact hz
    rw [htw]
    rw [if_neg (by simpa [List.isEmpty_iff] using hwne)]
    rw [List.drop_left]
  rw [List.append_assoc]
  exact hgoal

theorem matchMarker_none_nonws {c : Line} (h : ∀ x ∈ c, wsChar x = false) :
    matchMarker c = none := by
  unfold matchMarker
  rcases hmh : markerHead c with _ | n
  · rfl
  · dsimp only
    have htw : (c.drop n).takeWhile wsChar = [] := by
      rcases hdr : c.drop n with _ | ⟨e, es⟩
      · rfl
      · rw [List.takeWhile_cons, if_neg]
        have he : e ∈ c := List.drop_subset n c (by rw [hdr]; simp)
        simp [h e he]
    rw [htw]
    simp

/-- What the paragraph classifier guarantees about the indent it returns. -/
def IndentOK (isDocstring : Bool) (ind : Line) : Prop :=
  if isDocstring then allWs ind = true
  else ∃ a b, ind = a ++ '#' :: b ∧ allWs a = true ∧ allWs b = true

theorem marker_part {mk : Line} (c : Line) (hmk : MkOK mk)
    (hcnws : ∀ x ∈ c, wsChar x = false) :
    (mk = [] ∧ matchMarker (mk ++ c) = none) ∨
      matchMarker (mk ++ c) = some (mk, c) := by
  rcases hmk with hnil | ⟨hd, w, hmkeq, hs, hwne, hw⟩
  · subst hnil
    exact Or.inl ⟨rfl, by rw [List.nil_append]; exact matchMarker_none_nonws hcnws⟩
  · right
    subst hmkeq
    rw [List.append_assoc] at *
    have := matchMarker_extend hs hwne hw c
      (fun d hd2 => hcnws d (mem_of_head_opt hd2))
    rw [List.append_assoc] at this
    exact this

theorem mkc_head_nonws {mk : Line} (c : Line) (hmk : MkOK mk)
    (hcnws : ∀ x ∈ c, wsChar x = false) :
    ∀ e ∈ (mk ++ c).head?, wsChar e = false := by
  rcases mk with _ | ⟨m0, ms⟩
  · intro e he
    rw [List.nil_append] at he
    exact hcnws e (mem_of_head_opt he)
  · intro e he
    simp only [List.cons_append, List.head?_cons, Option.mem_def,
      Option.some.injEq] at he
    subst he
    exact mkOK_head_nonws hmk (by simp) m0 (by simp)

theorem parse_reconstruct (isDoc : Bool) {ind mk c : Line}
    (hind : IndentOK isDoc ind) (hmk : MkOK mk) (_hcne : c ≠ [])
    (hcnws : ∀ x ∈ c, wsChar x = false) :
    parseIndentMarker isDoc (ind ++ mk ++ c) = some (ind, mk) := by
  have hheads := mkc_head_nonws c hmk hcnws
  cases isDoc with
  | true =>
    have hws : allWs ind = true := by simpa [IndentOK] using hind
    unfold parseIndentMarker
    rw [if_pos rfl]
    rw [List.append_assoc]
    dsimp only
    have htw : (ind ++ (mk ++ c)).takeWhile wsChar = ind :=
      tw_all_head_stop (fun x hx => List.all_eq_true.mp hws x hx) hheads
    rw [htw, List.drop_left]
    rcases marker_part c hmk hcnws with ⟨hnil, hnone⟩ | hsome
    · rw [hnone, hnil]
    · rw [hsome]
  | false =>
    obtain ⟨a, b, hindeq, ha, hb⟩ := hind
    unfold parseIndentMarker
    rw [if_neg (by simp)]
    subst hindeq
    have hassoc : a ++ '#' :: b ++ mk ++ c = a ++ ('#' :: (b ++ (mk ++ c))) := by
      simp [List.append_assoc]
    rw [hassoc]
    dsimp only
    have htw : (a ++ ('#' :: (b ++ (mk ++ c)))).takeWhile wsChar = a :=
      tw_all_head_stop (fun x hx => List.all_eq_true.mp ha x hx)
        (by intro e he
            simp only [List.head?_cons, Option.mem_def, Option.some.injEq] at he
            subst he
            decide)
    rw [htw, List.drop_left]
    have htw2 : (b ++ (mk ++ c)).takeWhile wsChar = b :=
      tw_all_head_stop (fun x hx => List.all_eq_true.mp hb x hx) hheads
    split
    · rename_i r2 heq
      injection heq with h1 h2
      subst h2
      rw [htw2, List.drop_left]
      rcases marker_part c hmk hcnws with ⟨hnil, hnone⟩ | hsome
      · rw [hnone, hnil]
      · rw [hsome]
    · rename_i hne
      exact absurd rfl (hne (b ++ (mk ++ c)))

/-- Soundness of the paragraph classifier: the returned indent and marker
are an actual decomposition of the line, with the structure the regex
guarantees. -/
theorem parse_sound (isDoc : Bool) {l ind mk : Line}
    (h : parseIndentMarker isDoc l = some (ind, mk)) :
    IndentOK isDoc ind ∧ MkOK mk ∧
      l = ind ++ mk ++ l.drop (ind.length + mk.length) ∧
      (∀ d ∈ (l.drop (ind.length + mk.length)).head?, wsChar d = false) := by
  cases isDoc with
  | true =>
    unfold parseIndentMarker at h
    rw [if_pos rfl] at h
    dsimp only at h
    rw [drop_len_takeWhile] at h
    have hiok : IndentOK true (l.takeWhile wsChar) := by
      simp only [IndentOK, if_pos rfl, allWs, List.all_eq_true]
      intro x hx
      exact List.mem_takeWhile_imp hx
    have hsplitl : l = l.takeWhile wsChar ++ l.dropWhile wsChar :=
      (List.takeWhile_append_dropWhile wsChar l).symm
    rcases hm : matchMarker (l.dropWhile wsChar) with _ | ⟨mk0, r0⟩ <;>
      rw [hm] at h <;> dsimp only at h <;>
      simp only [Option.some.injEq, Prod.mk.injEq] at h <;>
      obtain ⟨hind, hmk⟩ := h
    · subst hind
      subst hmk
      set tw := l.takeWhile wsChar with htw
      refine ⟨hiok, Or.inl rfl, ?_, ?_⟩
      · simp only [List.append_nil, List.length_nil, Nat.add_zero]
        rw [htw, drop_len_takeWhile]
        exact hsplitl
      · simp only [List.length_nil, Nat.add_zero]
        rw [htw, drop_len_takeWhile]
        exact head_dropWhile_false wsChar l
    · subst hind
      subst hmk
      obtain ⟨hex, hmsplit, hheads⟩ := matchMarker_sound hm
      set tw := l.takeWhile wsChar with htw
      have hl : l = tw ++ mk0 ++ r0 := by
        rw [hsplitl, hmsplit]
        simp [List.append_assoc]
      have hdrop : l.drop (tw.length + mk0.length) = r0 := by
        rw [hl, ← List.length_append]
        exact List.drop_left (tw ++ mk0) r0
      refine ⟨hiok, Or.inr hex, ?_, ?_⟩
      · rw [hdrop]
        exact hl
      · rw [hdrop]
        exact hheads
  | false =>
    unfold parseIndentMarker at h
    rw [if_neg (by simp)] at h
    dsimp only at h
    rcases hd : l.drop (l.takeWhile wsChar).length with _ | ⟨c0, r2⟩ <;>
      rw [hd] at h
    · simp at h
    · by_cases hc0 : c0 = '#'
      · subst hc0
        have hlsplit : l = l.takeWhile wsChar ++ '#' :: r2 := by
          conv_lhs => rw [← List.takeWhile_append_dropWhile wsChar l]
          rw [drop_len_takeWhile] at hd
          rw [hd]
        have haws : allWs (l.takeWhile wsChar) = true := by
          simp only [allWs, List.all_eq_true]
          intro x hx
          exact List.mem_takeWhile_imp hx
        have hbws : allWs (r2.takeWhile wsChar) = true := by
          simp only [allWs, List.all_eq_true]
          intro x hx
          exact List.mem_takeWhile_imp hx
        have hr2split : r2 = r2.takeWhile wsChar ++ r2.dropWhile wsChar :=
          (List.takeWhile_append_dropWhile wsChar r2).symm
        have hE : (match ('#' :: r2 : List Char) with
            | '#' :: r2 =>
              (match matchMarker (r2.drop (r2.takeWhile wsChar).length) with
               | some (mk2, _) =>
                 some (l.takeWhile wsChar ++ '#' :: r2.takeWhile wsChar, mk2)
               | none =>
                 some (l.takeWhile wsChar ++ '#' :: r2.takeWhile wsChar, []))
            | _ => none) =
            (match matchMarker (r2.drop (r2.takeWhile wsChar).length) with
             | some (mk2, _) =>
               some (l.takeWhile wsChar ++ '#' :: r2.takeWhile wsChar, mk2)
             | none =>
               some (l.takeWhile wsChar ++ '#' :: r2.takeWhile wsChar, [])) := rfl
        rw [hE, drop_len_takeWhile] at h
        set tw := l.takeWhile wsChar with htwdef
        set tb := r2.takeWhile wsChar with htbdef
        rcases hm : matchMarker (r2.dropWhile wsChar) with _ | ⟨mk0, r0⟩ <;>
          rw [hm] at h <;> dsimp only at h <;>
          simp only [Option.some.injEq, Prod.mk.injEq] at h <;>
          obtain ⟨hind, hmk⟩ := h
        · subst hind
          subst hmk
          have hl2 : l = (tw ++ '#' :: tb) ++ r2.dropWhile wsChar := by
            rw [hlsplit]
            conv_lhs => rw [hr2split]
            simp [List.append_assoc]
          have hdrop : l.drop ((tw ++ '#' :: tb).length + ([] : Line).length) =
              r2.dropWhile wsChar := by
            simp only [List.length_nil, Nat.add_zero]
            rw [hl2]
            exact List.drop_left _ _
          refine ⟨⟨tw, tb, rfl, haws, hbws⟩, Or.inl rfl, ?_, ?_⟩
          · rw [hdrop, List.append_nil]
            exact hl2
          · rw [hdrop]
            exact head_dropWhile_false wsChar r2
        · subst hind
          subst hmk
          obtain ⟨hex, hmsplit, hheads⟩ := matchMarker_sound hm
          have hl2 : l = (tw ++ '#' :: tb) ++ mk0 ++ r0 := by
            rw [hlsplit]
            conv_lhs => rw [hr2split, hmsplit]
            simp [List.append_assoc]
          have hdrop : l.drop ((tw ++ '#' :: tb).length + mk0.length) = r0 := by
            rw [hl2, ← List.length_append]
            exact List.drop_left ((tw ++ '#' :: tb) ++ mk0) r0
          refine ⟨⟨tw, tb, rfl, haws, hbws⟩, Or.inr hex, ?_, ?_⟩
          · rw [hdrop]
            exact hl2
          · rw [hdrop]
            exact hheads
      · exfalso
        split at h
        · rename_i r3 heq
          injection heq with h1 h2
          exact hc0 h1
        · exact absurd h (by simp)

theorem singleTokenLine_of (isDoc : Bool) {ind mk c : Line}
    (hind : IndentOK isDoc ind) (hmk : MkOK mk) (hcne : c ≠ [])
    (hcnws : ∀ x ∈ c, wsChar x = false) :
    singleTokenLine isDoc (ind ++ mk ++ c) = true := by
  unfold singleTokenLine
  rw [parse_reconstruct isDoc hind hmk hcne hcnws]
  dsimp only
  have hr : (ind ++ mk ++ c).drop (ind.length + mk.length) = c := by
    have hre : ind ++ mk ++ c = (ind ++ mk) ++ c := rfl
    rw [hre, ← List.length_append]
    exact List.drop_left _ _
  rw [hr]
  simp only [Bool.and_eq_true, Bool.not_eq_true', List.isEmpty_iff,
    List.all_eq_true]
  constructor
  · simpa [List.isEmpty_iff] using hcne
  · intro x hx
    simp [hcnws x hx]

/-! ## rewrap_text -/

theorem allWs_replicate_space (n : Nat) :
    allWs (List.replicate n ' ') = true := by
  simp only [allWs, List.all_eq_true]
  intro x hx
  have := List.eq_of_mem_replicate hx
  subst this
  decide

theorem indentOK_pad (isDoc : Bool) {ind : Line} (h : IndentOK isDoc ind)
    (n : Nat) : IndentOK isDoc (ind ++ List.replicate n ' ') := by
  cases isDoc with
  | true =>
    simp only [IndentOK, if_pos rfl] at h ⊢
    rw [allWs_append, h, allWs_replicate_space]
    rfl
  | false =>
    obtain ⟨a, b, heq, ha, hb⟩ := h
    refine ⟨a, b ++ List.replicate n ' ', ?_, ha, ?_⟩
    · rw [heq]
      simp [List.append_assoc]
    · rw [allWs_append, hb, allWs_replicate_space]
      rfl

/-- Every line the paragraph extension accepts starts with the paragraph
prefix. -/
theorem extendPara_prefix (pre : Line) (isDoc : Bool) :
    ∀ (rest : List Line), ∀ x ∈ rest.take (extendPara pre isDoc rest),
      pre.isPrefixOf x = true := by
  intro rest
  induction rest with
  | nil => intro x hx; simp at hx
  | cons l rs ih =>
    intro x hx
    simp only [extendPara] at hx
    split at hx
    · simp at hx
    · rename_i hpref
      have hpl : pre.isPrefixOf l = true := by
        cases hp : pre.isPrefixOf l
        · rw [hp] at hpref
          simp at hpref
        · rfl
      split at hx
      · simp at hx
      · split at hx
        · simp at hx
        · split at hx
          · simp at hx
          · split at hx
            · simp at hx
            · split at hx
              · -- colon line: take 1
                simp only [List.take_succ_cons, List.take_zero] at hx
                rcases List.mem_cons.mp hx with hx | hx
                · subst hx
                  exact hpl
                · simp at hx
              · -- continue
                rw [Nat.add_comm 1 _, List.take_succ_cons] at hx
                rcases List.mem_cons.mp hx with hx | hx
                · subst hx
                  exact hpl
                · exact ih x hx

/-- Width accounting over the whole rewrap loop: every output line fits, or
carries the exclusion marker, or is a structural prefix followed by a single
unbreakable token. -/
theorem rewrapF_width (maxW : Nat) (isDoc : Bool) :
    ∀ (fuel : Nat) (lines out : List Line) (m : Bool),
      rewrapF maxW isDoc fuel lines = some (out, m) →
      ∀ x ∈ out, x.length ≤ maxW ∨ hasNoqa x = true ∨
        singleTokenLine isDoc x = true := by
  intro fuel
  induction fuel with
  | zero =>
    intro lines out m h
    rcases lines with _ | ⟨l, rest⟩
    · simp only [rewrapF, Option.some.injEq, Prod.mk.injEq] at h
      obtain ⟨h1, _⟩ := h
      subst h1
      intro x hx
      simp at hx
    · simp only [rewrapF] at h
      exact absurd h (by simp)
  | succ fuel ih =>
    intro lines out m h
    rcases lines with _ | ⟨l, rest⟩
    · simp only [rewrapF, Option.some.injEq, Prod.mk.injEq] at h
      obtain ⟨h1, _⟩ := h
      subst h1
      intro x hx
      simp at hx
    · simp only [rewrapF] at h
      split at h
      · rename_i hskip
        rcases hr : rewrapF maxW isDoc fuel rest with _ | ⟨out2, m2⟩ <;>
          rw [hr] at h
        · simp at h
        · simp only [Option.map_some', Option.some.injEq, Prod.mk.injEq] at h
          obtain ⟨h1, _⟩ := h
          subst h1
          intro x hx
          rcases List.mem_cons.mp hx with hx | hx
          · subst hx
            simp only [Bool.or_eq_true, decide_eq_true_eq] at hskip
            rcases hskip with hs | hs
            · exact Or.inl hs
            · exact Or.inr (Or.inl hs)
          · exact ih rest out2 m2 hr x hx
      · rcases hp : parseIndentMarker isDoc l with _ | ⟨ind, mk⟩ <;>
          rw [hp] at h
        · exact absurd h (by simp)
        · dsimp only at h
          set pre := ind ++ List.replicate mk.length ' ' with hpre
          set k := (if (rstrip l).getLast? = some ':' then 0
            else extendPara pre isDoc rest) with hk
          set para := List.intercalate ['\n']
            ((l :: rest.take k).map (fun x => x.drop pre.length)) with hpara
          rcases hw : pyWrap maxW (ind ++ mk) pre para with _ | newLines <;>
            rw [hw] at h
          · exact absurd h (by simp)
          · rcases hr : rewrapF maxW isDoc fuel (rest.drop k) with _ | ⟨out2, m2⟩ <;>
              rw [hr] at h
            · simp at h
            · simp only [Option.map_some', Option.some.injEq, Prod.mk.injEq] at h
              obtain ⟨h1, _⟩ := h
              subst h1
              intro x hx
              rcases List.mem_append.mp hx with hx | hx
              · have hps := parse_sound isDoc hp
                rcases pyWrap_width hw x hx with hle | ⟨cch, hform, hcne2, hcnws⟩
                · exact Or.inl hle
                · right
                  right
                  have hcnws2 : ∀ y ∈ cch, wsChar y = false := by
                    intro y hy
                    have := List.all_eq_true.mp hcnws y hy
                    simpa using this
                  rcases hform with hform | hform
                  · subst hform
                    exact singleTokenLine_of isDoc hps.1 hps.2.1 hcne2 hcnws2
                  · subst hform
                    have hind2 : IndentOK isDoc pre := by
                      rw [hpre]
                      exact indentOK_pad isDoc hps.1 mk.length
                    have hshape : pre ++ cch = pre ++ [] ++ cch := by simp
                    rw [hshape]
                    exact singleTokenLine_of isDoc hind2 (Or.inl rfl) hcne2 hcnws2
              · exact ih _ _ _ hr x hx

/-- Joining lines with newlines and tokenizing is tokenizing each line. -/
theorem tokens_intercalate_nl : ∀ (xs : List Line),
    tokens (List.intercalate ['\n'] xs) = tokensAll xs := by
  intro xs
  induction xs with
  | nil => rfl
  | cons x t ih =>
    cases t with
    | nil =>
      have h1 : List.intercalate ['\n'] [x] = x ++ [] := rfl
      rw [h1, List.append_nil]
      simp [tokensAll]
    | cons y t2 =>
      have hstep : List.intercalate ['\n'] (x :: y :: t2) =
          x ++ '\n' :: List.intercalate ['\n'] (y :: t2) := rfl
      rw [hstep, tokens_sep _ _ (by decide : wsChar '\n' = true), ih]
      simp [tokensAll]

/-- Without a list marker in the classifier, the parse returns an empty
marker and the leading whitespace as indent. -/
theorem parse_doc_nomarker {l ind mk : Line}
    (h : parseIndentMarker true l = some (ind, mk))
    (hnm : matchMarker (l.dropWhile wsChar) = none) :
    mk = [] ∧ ind = l.takeWhile wsChar := by
  unfold parseIndentMarker at h
  rw [if_pos rfl] at h
  dsimp only at h
  rw [drop_len_takeWhile, hnm] at h
  dsimp only at h
  simp only [Option.some.injEq, Prod.mk.injEq] at h
  exact ⟨h.2.symm, h.1.symm⟩

theorem flatMap_tokens_map {f : Line → Line} : ∀ (ys : List Line),
    (∀ y ∈ ys, tokens (f y) = tokens y) →
    tokensAll (ys.map f) = tokensAll ys := by
  intro ys
  induction ys with
  | nil => intro _; rfl
  | cons y t ih =>
    intro h
    simp only [List.map_cons, tokensAll, List.flatMap_cons]
    rw [h y (by simp)]
    have := ih (fun z hz => h z (by simp [hz]))
    simp only [tokensAll] at this
    rw [this]

/-- Appending after an indent-plus-marker splits the tokens: the marker's
mandatory trailing whitespace separates it from what follows. -/
theorem tokens_marker_sep {ind mk : Line} (hind : allWs ind = true)
    (hmk : MkOK mk) (z : Line) :
    tokens ((ind ++ mk) ++ z) = tokens (ind ++ mk) ++ tokens z := by
  rcases hmk with rfl | ⟨hd, w, rfl, hs, hwne, hw⟩
  · simp only [List.append_nil]
    rw [tokens_ws_append z hind, tokens_all_ws hind]
    simp
  · rcases w with _ | ⟨w0, w2⟩
    · exact absurd rfl hwne
    · have hw0 : wsChar w0 = true := by
        simp only [allWs, List.all_cons, Bool.and_eq_true] at hw
        exact hw.1
      have hw2 : allWs w2 = true := by
        simp only [allWs, List.all_cons, Bool.and_eq_true] at hw
        simpa [allWs] using hw.2
      have hl : ((ind ++ (hd ++ w0 :: w2)) ++ z : Line) =
          ind ++ (hd ++ w0 :: (w2 ++ z)) := by
        simp [List.append_assoc]
      have hr : (ind ++ (hd ++ w0 :: w2) : Line) = ind ++ (hd ++ w0 :: w2) := rfl
      rw [hl]
      rw [tokens_ws_append _ hind, tokens_ws_append _ hind]
      rw [tokens_sep hd _ hw0, tokens_sep hd _ hw0]
      rw [tokens_ws_append z hw2, tokens_all_ws hw2]
      simp

/-- Once a line has been emitted, the initial indent no longer matters. -/
theorem wrapLoopF_ii_irrel (maxW : Nat) (ii si : Line) :
    ∀ (fuel : Nat) (chunks : List Chunk),
      wrapLoopF maxW ii si fuel chunks true =
      wrapLoopF maxW si si fuel chunks true := by
  intro fuel
  induction fuel with
  | zero => intro chunks; cases chunks <;> rfl
  | succ fuel ih =>
    intro chunks
    rcases chunks with _ | ⟨c, cs⟩
    · rfl
    · simp only [wrapLoopF]
      rw [ih]
      simp

/-- Token accounting for the wrap loop before any line has been emitted,
for an arbitrary (possibly marker-carrying) initial indent whose tokens
separate cleanly from what follows.  If any line is emitted it is the first
and carries `ii`; otherwise the chunks held no words. -/
theorem wrapLoopF_tokens_first (maxW : Nat) (ii si : Line)
    (hsi : allWs si = true)
    (hsep : ∀ z : Line, tokens (ii ++ z) = tokens ii ++ tokens z) :
    ∀ (fuel : Nat) (chunks : List Chunk),
      chunks.length < fuel → ChunkHomog chunks → ChunkAlt chunks →
      tokensAll (wrapLoopF maxW ii si fuel chunks false) =
        (if wrapLoopF maxW ii si fuel chunks false = [] then []
         else tokens ii) ++ wordChunks chunks := by
  intro fuel
  induction fuel with
  | zero => intro chunks hf; exact absurd hf (Nat.not_lt_zero _)
  | succ fuel ih =>
    intro chunks hf hhom halt
    rcases chunks with _ | ⟨c, cs⟩
    · simp [wrapLoopF, wordChunks, tokensAll]
    · have hbody : wrapLoopF maxW ii si (fuel + 1) (c :: cs) false =
          (if (dropTrailWs (lineAttempt ((maxW : Int) - (ii.length : Int))
              (c :: cs)).1).isEmpty
           then wrapLoopF maxW ii si fuel
             (lineAttempt ((maxW : Int) - (ii.length : Int)) (c :: cs)).2 false
           else (ii ++ (dropTrailWs (lineAttempt ((maxW : Int) - (ii.length : Int))
              (c :: cs)).1).flatten)
             :: wrapLoopF maxW ii si fuel
               (lineAttempt ((maxW : Int) - (ii.length : Int)) (c :: cs)).2 true) :=
        rfl
      set q := lineAttempt ((maxW : Int) - (ii.length : Int)) (c :: cs) with hqdef
      set cur := dropTrailWs q.1 with hcur
      have hsplit : q.1 ++ q.2 = c :: cs := by
        rw [hqdef]
        exact lineAttempt_append _ _
      have hq2len : q.2.length < fuel := by
        have hlt : (c :: cs).length < fuel + 1 := hf
        simp only [List.length_cons] at hlt
        have := lineAttempt_consume ((maxW : Int) - (ii.length : Int))
          (List.cons_ne_nil c cs)
        rw [← hqdef] at this
        omega
      have hq1hom : ChunkHomog q.1 := by
        intro x hx
        exact hhom x (by rw [← hsplit]; exact List.mem_append_left _ hx)
      have hq2hom : ChunkHomog q.2 := by
        intro x hx
        exact hhom x (by rw [← hsplit]; exact List.mem_append_right _ hx)
      have hq1alt : ChunkAlt q.1 := by
        have := halt
        rw [← hsplit] at this
        exact (List.chain'_append.mp this).1
      have hq2alt : ChunkAlt q.2 := by
        have := halt
        rw [← hsplit] at this
        exact (List.chain'_append.mp this).2.1
      have hwcsplit : wordChunks (c :: cs) = wordChunks q.1 ++ wordChunks q.2 := by
        rw [← hsplit, wordChunks_append]
      have hcurwc : wordChunks cur = wordChunks q.1 := by
        rw [hcur]
        exact wordChunks_dropTrailWs q.1
      have hcurhom : ChunkHomog cur := by
        intro x hx
        apply hq1hom
        rcases dropTrailWs_shape q.1 with hs | ⟨e, he, _⟩
        · rw [hcur, hs] at hx
          exact hx
        · rw [he]
          apply List.mem_append_left
          rw [← hcur]
          exact hx
      have hcuralt : ChunkAlt cur := by
        rcases dropTrailWs_shape q.1 with hs | ⟨e, he, _⟩
        · rw [hcur, hs]
          exact hq1alt
        · have halt1 := hq1alt
          rw [he] at halt1
          have := (List.chain'_append.mp halt1).1
          rw [← hcur] at this
          exact this
      rw [hbody]
      by_cases hempty : cur.isEmpty = true
      · rw [if_pos hempty]
        have hnil : wordChunks q.1 = [] := by
          rw [← hcurwc]
          rw [List.isEmpty_iff] at hempty
          rw [hempty]
          rfl
        rw [hwcsplit, hnil, List.nil_append]
        exact ih q.2 hq2len hq2hom hq2alt
      · rw [if_neg hempty]
        rw [if_neg (List.cons_ne_nil _ _)]
        rw [tokensAll, List.flatMap_cons, ← tokensAll]
        rw [wrapLoopF_ii_irrel]
        rw [wrapLoopF_tokens maxW si si hsi hsi fuel q.2 true hq2len hq2hom hq2alt]
        rw [hsep]
        rw [tokens_flatten_alt cur hcurhom hcuralt]
        rw [hcurwc, hwcsplit]
        simp [List.append_assoc]

/-- `pyWrap` with a marker-carrying initial indent: when the text holds at
least one token, the output's tokens are the indent's tokens followed by the
text's. -/
theorem pyWrap_tokens_first {maxW : Nat} {ii si text : Line} {out : List Line}
    (hsi : allWs si = true)
    (hsep : ∀ z : Line, tokens (ii ++ z) = tokens ii ++ tokens z)
    (hne : tokens text ≠ [])
    (h : pyWrap maxW ii si text = some out) :
    tokensAll out = tokens ii ++ tokens text := by
  unfold pyWrap at h
  split at h
  · exact absurd h (by simp)
  · simp only [Option.some.injEq] at h
    subst h
    have hkey := wrapLoopF_tokens_first maxW ii si hsi hsep _
      (chunkify (munge text)) (Nat.lt_succ_self _)
      (chunkify_homog _) (chunkify_alt _)
    have hwc : wordChunks (chunkify (munge text)) = tokens text := by
      have h1 : wordChunks (chunkify (munge text)) = tokens (munge text) := rfl
      rw [h1, tokens_munge]
    rw [hwc] at hkey
    by_cases hW : wrapLoopF maxW ii si ((chunkify (munge text)).length + 1)
        (chunkify (munge text)) false = []
    · rw [hW] at hkey
      rw [if_pos rfl] at hkey
      simp only [tokensAll, List.flatMap_nil, List.nil_append] at hkey
      exact absurd hkey.symm hne
    · rw [if_neg hW] at hkey
      exact hkey

/-- In docstring mode, a line is safe for token-preserving reflow: if it
carries a list marker, the text after the marker has at least one
non-whitespace token.  (A marker followed by pure whitespace wraps to no
lines at all, deleting the marker token.) -/
def markerContentOK (l : Line) : Bool :=
  match parseIndentMarker true l with
  | some (ind, mk) =>
      mk.isEmpty || !(tokens (l.drop (ind.length + mk.length))).isEmpty
  | none => true

/-- Token preservation for the rewrap loop in docstring mode: reflow only
redistributes whitespace (and re-sites each paragraph's list marker on the
first wrapped line), provided no wrapped marker has token-free content. -/
theorem rewrapF_tokens (maxW : Nat) :
    ∀ (fuel : Nat) (lines out : List Line) (m : Bool),
      (∀ l ∈ lines, markerContentOK l = true) →
      rewrapF maxW true fuel lines = some (out, m) →
      tokensAll out = tokensAll lines := by
  intro fuel
  induction fuel with
  | zero =>
    intro lines out m _ h
    rcases lines with _ | ⟨l, rest⟩
    · simp only [rewrapF, Option.some.injEq, Prod.mk.injEq] at h
      obtain ⟨h1, _⟩ := h
      subst h1
      rfl
    · simp only [rewrapF] at h
      exact absurd h (by simp)
  | succ fuel ih =>
    intro lines out m hnm h
    rcases lines with _ | ⟨l, rest⟩
    · simp only [rewrapF, Option.some.injEq, Prod.mk.injEq] at h
      obtain ⟨h1, _⟩ := h
      subst h1
      rfl
    · simp only [rewrapF] at h
      split at h
      · rcases hr : rewrapF maxW true fuel rest with _ | ⟨out2, m2⟩ <;>
          rw [hr] at h
        · simp at h
        · simp only [Option.map_some', Option.some.injEq, Prod.mk.injEq] at h
          obtain ⟨h1, _⟩ := h
          subst h1
          simp only [tokensAll, List.flatMap_cons]
          have := ih rest out2 m2 (fun z hz => hnm z (by simp [hz])) hr
          simp only [tokensAll] at this
          rw [this]
      · rcases hp : parseIndentMarker true l with _ | ⟨ind, mk⟩ <;>
          rw [hp] at h
        · exact absurd h (by simp)
        · dsimp only at h
          have hps := parse_sound true hp
          have hindws : allWs ind = true := by
            have := hps.1
            simpa [IndentOK] using this
          have hmkok : MkOK mk := hps.2.1
          have hdec : l = ind ++ mk ++ l.drop (ind.length + mk.length) :=
            hps.2.2.1
          set pre := ind ++ List.replicate mk.length ' ' with hpre
          set k := (if (rstrip l).getLast? = some ':' then 0
            else extendPara pre true rest) with hk
          set para := List.intercalate ['\n']
            ((l :: rest.take k).map (fun x => x.drop pre.length)) with hpara
          rcases hw : pyWrap maxW (ind ++ mk) pre para with _ | newLines <;>
            rw [hw] at h
          · exact absurd h (by simp)
          · rcases hr : rewrapF maxW true fuel (rest.drop k) with _ | ⟨out2, m2⟩ <;>
              rw [hr] at h
            · simp at h
            · simp only [Option.map_some', Option.some.injEq, Prod.mk.injEq] at h
              obtain ⟨h1, _⟩ := h
              subst h1
              have hprews : allWs pre = true := by
                rw [hpre, allWs_append, hindws, allWs_replicate_space]
                rfl
              have hplen : pre.length = ind.length + mk.length := by
                rw [hpre]
                simp
              have hldrop : l.drop pre.length = l.drop (ind.length + mk.length) := by
                rw [hplen]
              have hsep : ∀ z : Line, tokens ((ind ++ mk) ++ z) =
                  tokens (ind ++ mk) ++ tokens z :=
                tokens_marker_sep hindws hmkok
              have hltok : tokens l =
                  tokens (ind ++ mk) ++ tokens (l.drop (ind.length + mk.length)) := by
                conv_lhs => rw [hdec]
                exact hsep _
              have hmap2 : tokensAll ((rest.take k).map (fun x => x.drop pre.length)) =
                  tokensAll (rest.take k) := by
                apply flatMap_tokens_map
                intro y hy
                have hpref : pre.isPrefixOf y = true := by
                  by_cases hcol : (rstrip l).getLast? = some ':'
                  · rw [hk, if_pos hcol] at hy
                    simp at hy
                  · rw [hk, if_neg hcol] at hy
                    exact extendPara_prefix pre true rest y hy
                obtain ⟨t, ht⟩ := List.isPrefixOf_iff_prefix.mp hpref
                have hydrop : y.drop pre.length = t := by
                  rw [← ht]
                  exact List.drop_left _ _
                rw [hydrop, ← ht, tokens_ws_append _ hprews]
              have hparatok : tokens para =
                  tokens (l.drop (ind.length + mk.length)) ++ tokensAll (rest.take k) := by
                rw [hpara, tokens_intercalate_nl]
                simp only [List.map_cons, tokensAll, List.flatMap_cons]
                rw [hldrop]
                have := hmap2
                simp only [tokensAll] at this
                rw [this]
              have hnewtok : tokensAll newLines =
                  tokens (ind ++ mk) ++ tokens para := by
                by_cases hmk : mk = []
                · subst hmk
                  have hii : allWs (ind ++ []) = true := by simpa using hindws
                  rw [tokens_all_ws hii, List.nil_append]
                  exact pyWrap_tokens hii hprews hw
                · have hcne : tokens (l.drop (ind.length + mk.length)) ≠ [] := by
                    have hmc := hnm l (by simp)
                    simp only [markerContentOK, hp] at hmc
                    cases hb : mk.isEmpty with
                    | true => exact absurd (List.isEmpty_iff.mp hb) hmk
                    | false =>
                      rw [hb, Bool.false_or] at hmc
                      intro hcon
                      rw [hcon] at hmc
                      simp at hmc
                  have hparane : tokens para ≠ [] := by
                    rw [hparatok]
                    intro hcon
                    exact hcne (List.append_eq_nil.mp hcon).1
                  exact pyWrap_tokens_first hprews hsep hparane hw
              have hih := ih (rest.drop k) out2 m2
                (fun z hz => hnm z (by
                  have := List.drop_subset k rest hz
                  simp [this])) hr
              calc tokensAll (newLines ++ out2)
                  = tokensAll newLines ++ tokensAll out2 := by
                    simp [tokensAll, List.flatMap_append]
                _ = (tokens (ind ++ mk) ++ tokens para) ++ tokensAll (rest.drop k) := by
                    rw [hnewtok, hih]
                _ = (tokens (ind ++ mk) ++
                      (tokens (l.drop (ind.length + mk.length)) ++
                        tokensAll (rest.take k))) ++ tokensAll (rest.drop k) := by
                    rw [hparatok]
                _ = tokens l ++ (tokensAll (rest.take k) ++ tokensAll (rest.drop k)) := by
                    rw [hltok]
                    simp [List.append_assoc]
                _ = tokensAll (l :: rest) := by
                    simp only [tokensAll, List.flatMap_cons, List.append_assoc]
                    rw [← List.flatMap_append, List.take_append_drop]

/-- rewrap_text is the identity (and reports no modification) on input whose
lines all fit. -/
theorem rewrapF_noop (maxW : Nat) (isDoc : Bool) :
    ∀ (fuel : Nat) (lines : List Line), lines.length ≤ fuel →
      (∀ l ∈ lines, l.length ≤ maxW) →
      rewrapF maxW isDoc fuel lines = some (lines, false) := by
  intro fuel
  induction fuel with
  | zero =>
    intro lines hlen _
    have h0 : lines = [] := List.length_eq_zero.mp (Nat.le_zero.mp hlen)
    subst h0
    rfl
  | succ fuel ih =>
    intro lines hlen hshort
    rcases lines with _ | ⟨l, rest⟩
    · rfl
    · simp only [rewrapF]
      rw [if_pos (by simp [hshort l (by simp)])]
      rw [ih rest (by simpa using Nat.le_of_succ_le_succ (by simpa using hlen))
        (fun z hz => hshort z (by simp [hz]))]
      rfl

/-! ## Claims about rewrap_text and the CLI wiring -/

/-- C9 (amended): `rewrap_text` on input whose lines all fit within
`max_length` leaves the lines unchanged and returns `False`.  (The second
half of the original claim — that running the wrapper twice equals running
it once — fails on the code; see `c9_counterexample`.) -/
theorem c9_conformant_noop (lines : List Line) (maxW : Nat) (isDoc : Bool)
    (h : ∀ l ∈ lines, l.length ≤ maxW) :
    pyRewrap lines maxW isDoc = some (lines, false) :=
  rewrapF_noop maxW isDoc lines.length lines (Nat.le_refl _) h

/-- Witness for `c9_conformant_noop` at a concrete conformant input. -/
theorem c9_conformant_noop_witness :
    pyRewrap ["ab".toList, "c".toList] 5 true =
      some (["ab".toList, "c".toList], false) :=
  c9_conformant_noop ["ab".toList, "c".toList] 5 true (by decide)

/-- C9 counterexample: running `rewrap_text` twice is not the same as
running it once.  The overlong all-whitespace line is deleted by the first
run after terminating the first paragraph; on the second run the paragraph
extends across the deletion point and the short lines are refilled. -/
theorem c9_counterexample :
    pyRewrap ["AAAAAAA".toList, "      ".toList, "a".toList, "b".toList]
        5 true =
      some (["AAAAAAA".toList, "a".toList, "b".toList], true) ∧
    pyRewrap ["AAAAAAA".toList, "a".toList, "b".toList] 5 true =
      some (["AAAAAAA".toList, "a b".toList], true) ∧
    (["AAAAAAA".toList, "a".toList, "b".toList] : List Line) ≠
      ["AAAAAAA".toList, "a b".toList] := by
  refine ⟨?_, ?_, ?_⟩ <;> decide

/-- C3 (amended): every line produced by `rewrap_text` fits within
`max_length`, except lines carrying the exclusion marker and lines that are
a structural prefix followed by a single unbreakable token (such a line can
exceed `max_length` whenever prefix and token together are too wide, even if
the token alone is not). -/
theorem c3_width_amended (lines : List Line) (maxW : Nat) (isDoc : Bool)
    (out : List Line) (m : Bool)
    (h : pyRewrap lines maxW isDoc = some (out, m)) :
    ∀ l ∈ out, l.length ≤ maxW ∨ hasNoqa l = true ∨
      singleTokenLine isDoc l = true :=
  rewrapF_width maxW isDoc lines.length lines out m h

/-- Witness for `c3_width_amended` at a concrete input. -/
theorem c3_width_amended_witness :
    ("    abcd".toList.length ≤ 5 ∨ hasNoqa "    abcd".toList = true ∨
      singleTokenLine true "    abcd".toList = true) :=
  c3_width_amended ["    abcd e".toList] 5 true
    ["    abcd".toList, "    e".toList] true (by decide)
    "    abcd".toList (by decide)

/-- C3 counterexample: an output line longer than `max_length` whose only
token is itself narrower than `max_length` (the indent makes it overflow),
so the claim's "single token wider than max_length" exception does not
apply. -/
theorem c3_counterexample :
    pyRewrap ["    abcd e".toList] 5 true =
      some (["    abcd".toList, "    e".toList], true) ∧
    "    abcd".toList.length > 5 ∧
    hasNoqa "    abcd".toList = false ∧
    tokens "    abcd".toList = ["abcd".toList] ∧
    "abcd".toList.length ≤ 5 := by
  refine ⟨?_, ?_, ?_, ?_, ?_⟩ <;> decide

/-- C4 (amended): in docstring mode, reflow preserves the exact sequence
(hence the multiset) of non-whitespace tokens, provided every wrapped line
that carries a list marker has at least one non-whitespace token after the
marker; the marker is re-sited on the first wrapped line of its paragraph.
(A marker whose content is pure whitespace wraps to no lines at all and is
deleted together with its marker token, and in comment mode each emitted
line carries its own `#`, so the `#` count can change — see
`c4_counterexample` for both failures.) -/
theorem c4_tokens_amended (lines : List Line) (maxW : Nat)
    (out : List Line) (m : Bool)
    (hmc : ∀ l ∈ lines, markerContentOK l = true)
    (h : pyRewrap lines maxW true = some (out, m)) :
    tokensAll out = tokensAll lines :=
  rewrapF_tokens maxW lines.length lines out m hmc h

/-- Witness for `c4_tokens_amended` at a concrete input carrying a list
marker: the bullet is kept on the first wrapped line and every token
survives. -/
theorem c4_tokens_amended_witness :
    tokensAll ["  - aaaa".toList, "    bbbb".toList] =
      tokensAll ["  - aaaa bbbb".toList] :=
  c4_tokens_amended ["  - aaaa bbbb".toList] 8
    ["  - aaaa".toList, "    bbbb".toList] true (by decide) (by decide)

/-- C4 counterexample: comment-mode reflow duplicates the `#` token, so the
multiset of non-whitespace tokens of the replaced lines differs from the
original; and in docstring mode an overlong bullet line with pure-whitespace
content is deleted outright, losing its `-` token. -/
theorem c4_counterexample :
    pyRewrap ["# aa bb".toList] 5 false =
      some (["# aa".toList, "# bb".toList], true) ∧
    tokensAll ["# aa bb".toList] = ["#".toList, "aa".toList, "bb".toList] ∧
    tokensAll ["# aa".toList, "# bb".toList] =
      ["#".toList, "aa".toList, "#".toList, "bb".toList] ∧
    (tokensAll ["# aa bb".toList]).count "#".toList = 1 ∧
    (tokensAll ["# aa".toList, "# bb".toList]).count "#".toList = 2 ∧
    ¬ List.Perm (tokensAll ["# aa".toList, "# bb".toList])
        (tokensAll ["# aa bb".toList]) ∧
    pyRewrap ["-         ".toList] 5 true = some ([], true) ∧
    tokensAll ["-         ".toList] = ["-".toList] ∧
    ¬ List.Perm (tokensAll ([] : List Line)) (tokensAll ["-         ".toList]) := by
  refine ⟨by decide, by decide, by decide, by decide, by decide, ?_,
    by decide, by decide, ?_⟩
  · intro hp
    exact absurd (hp.count_eq "#".toList) (by decide)
  · intro hp
    exact absurd hp.length_eq (by decide)


/-- C2 (amended): the comment-mode structural indent is the line's leading
whitespace, a single `#`, and the ENTIRE maximal whitespace run after the
`#` (not at most one space). -/
theorem c2_indent_structure (l ind mk : Line)
    (h : parseIndentMarker false l = some (ind, mk)) :
    ind = l.takeWhile wsChar ++
      '#' :: ((l.dropWhile wsChar).drop 1).takeWhile wsChar := by
  unfold parseIndentMarker at h
  rw [if_neg (by simp)] at h
  dsimp only at h
  rw [drop_len_takeWhile] at h
  rcases hd : l.dropWhile wsChar with _ | ⟨c0, r2⟩ <;> rw [hd] at h
  · simp at h
  · simp only [List.drop_one, List.tail_cons]
    split at h
    · rename_i r3 heq
      injection heq with h1 h2
      subst h1
      rw [← h2] at h
      rcases hm : matchMarker (r2.drop (r2.takeWhile wsChar).length) with
          _ | ⟨mk0, r0⟩ <;> rw [hm] at h <;> dsimp only at h <;>
        simp only [Option.some.injEq, Prod.mk.injEq] at h
      · exact h.1.symm
      · exact h.1.symm
    · exact absurd h (by simp)

/-- Witness for `c2_indent_structure` at a concrete input. -/
theorem c2_indent_structure_witness :
    ("#   ".toList : Line) = "#   xx yy".toList.takeWhile wsChar ++
      '#' :: (("#   xx yy".toList.dropWhile wsChar).drop 1).takeWhile wsChar :=
  c2_indent_structure "#   xx yy".toList "#   ".toList [] (by decide)

/-- C2 counterexample: on a comment line with three spaces after the `#`,
the computed indent is `"#   "` — more than the claimed "# plus at most one
space" — and rewrapping uses that full indent as the paragraph prefix. -/
theorem c2_counterexample :
    parseIndentMarker false "#   xx yy".toList =
      some ("#   ".toList, []) ∧
    "#   ".toList ≠ "#".toList ∧ "#   ".toList ≠ "# ".toList ∧
    pyRewrap ["#   aaaa bbbb".toList] 10 false =
      some (["#   aaaa".toList, "#   bbbb".toList], true) := by
  refine ⟨?_, ?_, ?_, ?_⟩ <;> decide

/-- C10: a line holding a single unbreakable token wider than the limit is
rewrapped to itself, yet `rewrap_text` reports it as modified, and
`process_content` therefore reports the buffer as modified (so
`process_file` rewrites the file and `main` prints `Modified:` on every
run). -/
theorem c10_single_token_modified :
    pyRewrap ["# aaaaaaaaaaaa".toList] 10 false =
      some (["# aaaaaaaaaaaa".toList], true) ∧
    processContent ["# aaaaaaaaaaaa".toList] [] 10 false true false =
      .ok (["# aaaaaaaaaaaa".toList], true) := by
  refine ⟨by decide, ?_⟩
  rfl

/-- C1: the flag wiring of `main` is swapped.  With `--skip-comments` alone,
`process_content` is called with comment wrapping still enabled and
docstring processing disabled (and symmetrically for `--skip-docstrings`);
an overlong comment is still rewrapped under `--skip-comments`. -/
theorem c1_skip_flags_swapped :
    mainWrapFlags true false = (true, false) ∧
    mainWrapFlags false true = (false, true) ∧
    processContent ["# aaaa bbbb c".toList] [] 10 false
      (mainWrapFlags true false).1 (mainWrapFlags true false).2 =
      .ok (["# aaaa".toList, "# bbbb c".toList], true) := by
  refine ⟨by decide, by decide, ?_⟩
  rfl

/-! ## Quote normalization lemmas -/

theorem sq_nonws : wsChar sq = false := by decide

theorem quoteTok_dq3 (rest : Line) : quoteTok (dq3 ++ rest) = some (dq3, rest) := by
  show quoteTok ('"' :: '"' :: '"' :: rest) = some (dq3, rest)
  simp [quoteTok, quoteTokNoR, dq3, List.isPrefixOf]

theorem quoteTok_rdq3 (rest : Line) :
    quoteTok ('r' :: (dq3 ++ rest)) = some ('r' :: dq3, rest) := by
  show quoteTok ('r' :: '"' :: '"' :: '"' :: rest) = some ('r' :: dq3, rest)
  simp [quoteTok, quoteTokNoR, dq3, List.isPrefixOf]

theorem quoteTok_tsq3 (t : Line) : quoteTok (sq :: sq :: sq :: (t ++ [sq, sq, sq])) =
    some ([sq, sq, sq], t ++ [sq, sq, sq]) := by
  simp [quoteTok, quoteTokNoR, sq, List.isPrefixOf]

theorem quoteTok_sdq (t : Line)
    (ht : ¬ (['"', '"'] : Line).isPrefixOf (t ++ ['"']) = true) :
    quoteTok ('"' :: (t ++ ['"'])) = some (['"'], t ++ ['"']) := by
  have h1 : quoteTok ('"' :: (t ++ ['"'])) = quoteTokNoR ('"' :: (t ++ ['"'])) := by
    simp [quoteTok]
  rw [h1]
  unfold quoteTokNoR
  rw [if_neg]
  · rw [if_neg]
    · rw [if_pos (show (['"'] : Line).isPrefixOf ('"' :: (t ++ ['"'])) = true from by
        simp [List.isPrefixOf])]
      rfl
    · rw [show ([sq, sq, sq] : Line).isPrefixOf ('"' :: (t ++ ['"'])) = false from by
        simp [List.isPrefixOf, sq]]
      simp
  · intro hcon
    apply ht
    simp only [List.isPrefixOf, List.cons_append] at hcon ⊢
    simpa using hcon

theorem ensureTriple_canonical {i : Line} (rest : Line) (tail : List Line)
    (hi : allWs i = true) :
    ensureTriple ((i ++ dq3 ++ rest) :: tail) =
      .ok ((i ++ dq3 ++ rest) :: tail, false) := by
  unfold ensureTriple
  dsimp only
  have htw : (i ++ dq3 ++ rest).takeWhile wsChar = i := by
    rw [List.append_assoc]
    exact tw_all_head_stop (fun x hx => List.all_eq_true.mp hi x hx)
      (by intro e he
          simp only [dq3, List.cons_append, List.head?_cons, Option.mem_def,
            Option.some.injEq] at he
          subst he
          decide)
  rw [htw]
  have hdrop : (i ++ dq3 ++ rest).drop i.length = dq3 ++ rest := by
    rw [List.append_assoc]
    exact List.drop_left _ _
  rw [hdrop]
  rw [quoteTok_dq3 rest]
  split
  case _ heq => exact absurd heq (by simp)
  case _ quote content heq =>
  obtain ⟨rfl, rfl⟩ := Prod.mk.inj (Option.some.inj heq)
  rw [if_pos (by decide)]

theorem ensureTriple_canonical_raw {i : Line} (rest : Line) (tail : List Line)
    (hi : allWs i = true) :
    ensureTriple ((i ++ 'r' :: dq3 ++ rest) :: tail) =
      .ok ((i ++ 'r' :: dq3 ++ rest) :: tail, false) := by
  unfold ensureTriple
  dsimp only
  have htw : (i ++ 'r' :: dq3 ++ rest).takeWhile wsChar = i := by
    rw [show (i ++ 'r' :: dq3 ++ rest : Line) =
        i ++ ('r' :: (dq3 ++ rest)) from by simp]
    exact tw_all_head_stop (fun x hx => List.all_eq_true.mp hi x hx)
      (by intro e he
          simp only [List.head?_cons, Option.mem_def, Option.some.injEq] at he
          subst he
          decide)
  rw [htw]
  have hdrop : (i ++ 'r' :: dq3 ++ rest).drop i.length = 'r' :: (dq3 ++ rest) := by
    rw [show (i ++ 'r' :: dq3 ++ rest : Line) =
        i ++ ('r' :: (dq3 ++ rest)) from by simp]
    exact List.drop_left _ _
  rw [hdrop]
  rw [quoteTok_rdq3 rest]
  split
  case _ heq => exact absurd heq (by simp)
  case _ quote content heq =>
  obtain ⟨rfl, rfl⟩ := Prod.mk.inj (Option.some.inj heq)
  rw [if_pos (by decide)]

theorem ensureTriple_triple_single (i t : Line) (hi : allWs i = true) :
    ensureTriple [i ++ [sq, sq, sq] ++ t ++ [sq, sq, sq]] =
      .ok ([i ++ dq3 ++ t ++ dq3], true) := by
  unfold ensureTriple
  dsimp only
  have hl0 : (i ++ [sq, sq, sq] ++ t ++ [sq, sq, sq] : Line) =
      i ++ (sq :: sq :: sq :: (t ++ [sq, sq, sq])) := by
    simp
  have htw : (i ++ [sq, sq, sq] ++ t ++ [sq, sq, sq]).takeWhile wsChar = i := by
    rw [hl0]
    exact tw_all_head_stop (fun x hx => List.all_eq_true.mp hi x hx)
      (by intro e he
          simp only [List.head?_cons, Option.mem_def, Option.some.injEq] at he
          subst he
          decide)
  rw [htw]
  have hdrop : (i ++ [sq, sq, sq] ++ t ++ [sq, sq, sq]).drop i.length =
      sq :: sq :: sq :: (t ++ [sq, sq, sq]) := by
    rw [hl0]
    exact List.drop_left _ _
  rw [hdrop]
  rw [quoteTok_tsq3 t]
  split
  case _ heq => exact absurd heq (by simp)
  case _ quote content heq =>
  obtain ⟨rfl, rfl⟩ := Prod.mk.inj (Option.some.inj heq)
  rw [if_neg (by decide)]
  rw [show ([i ++ [sq, sq, sq] ++ t ++ [sq, sq, sq]] : List Line).getLastD [] =
      i ++ [sq, sq, sq] ++ t ++ [sq, sq, sq] from rfl]
  rw [show ([sq, sq, sq] : Line).dropWhile (fun c => c = 'r') = [sq, sq, sq]
    from rfl]
  have hrstrip : rstrip (i ++ [sq, sq, sq] ++ t ++ [sq, sq, sq]) =
      i ++ [sq, sq, sq] ++ t ++ [sq, sq, sq] := by
    rw [show (i ++ [sq, sq, sq] ++ t ++ [sq, sq, sq] : Line) =
        (i ++ [sq, sq, sq] ++ t ++ [sq, sq]) ++ [sq] from by simp]
    exact rstrip_last_nonws (by decide)
  rw [hrstrip]
  have hsuf : ([sq, sq, sq] : Line).isSuffixOf
      (i ++ [sq, sq, sq] ++ t ++ [sq, sq, sq]) = true := by
    rw [List.isSuffixOf_iff_suffix]
    exact ⟨i ++ [sq, sq, sq] ++ t, rfl⟩
  rw [hsuf]
  rw [if_neg (by simp)]
  rw [show ([sq, sq, sq] : Line).head? = some sq from rfl]
  rw [if_neg (by decide)]
  rw [show (List.set [i ++ [sq, sq, sq] ++ t ++ [sq, sq, sq]] 0
      (i ++ [] ++ dq3 ++ (t ++ [sq, sq, sq]))) =
      [i ++ [] ++ dq3 ++ (t ++ [sq, sq, sq])] from rfl]
  rw [show ([i ++ [] ++ dq3 ++ (t ++ [sq, sq, sq])] : List Line).getLastD [] =
      i ++ [] ++ dq3 ++ (t ++ [sq, sq, sq]) from rfl]
  have hrstrip2 : rstrip (i ++ [] ++ dq3 ++ (t ++ [sq, sq, sq])) =
      (i ++ dq3 ++ t ++ [sq, sq]) ++ [sq] := by
    rw [show (i ++ [] ++ dq3 ++ (t ++ [sq, sq, sq]) : Line) =
        (i ++ dq3 ++ t ++ [sq, sq]) ++ [sq] from by simp]
    exact rstrip_last_nonws (by decide)
  rw [hrstrip2]
  have htake : ((i ++ dq3 ++ t ++ [sq, sq]) ++ [sq]).take
      (((i ++ dq3 ++ t ++ [sq, sq]) ++ [sq]).length - ([sq, sq, sq] : Line).length) =
      i ++ dq3 ++ t := by
    have hlen : ((i ++ dq3 ++ t ++ [sq, sq]) ++ [sq]).length -
        ([sq, sq, sq] : Line).length = (i ++ dq3 ++ t).length := by
      simp only [List.length_append, dq3, List.length_cons, List.length_nil]
      omega
    rw [hlen]
    rw [show ((i ++ dq3 ++ t ++ [sq, sq]) ++ [sq] : Line) =
        (i ++ dq3 ++ t) ++ [sq, sq, sq] from by simp]
    exact List.take_left _ _
  rw [htake]
  rfl

theorem ensureTriple_single_double (i t : Line) (hi : allWs i = true)
    (ht : ¬ (['"', '"'] : Line).isPrefixOf (t ++ ['"']) = true) :
    ensureTriple [i ++ '"' :: (t ++ ['"'])] =
      .ok ([i ++ dq3 ++ t ++ dq3], true) := by
  unfold ensureTriple
  dsimp only
  have htw : (i ++ '"' :: (t ++ ['"'])).takeWhile wsChar = i :=
    tw_all_head_stop (fun x hx => List.all_eq_true.mp hi x hx)
      (by intro e he
          simp only [List.head?_cons, Option.mem_def, Option.some.injEq] at he
          subst he
          decide)
  rw [htw]
  rw [List.drop_left]
  rw [quoteTok_sdq t ht]
  split
  case _ heq => exact absurd heq (by simp)
  case _ quote content heq =>
  obtain ⟨rfl, rfl⟩ := Prod.mk.inj (Option.some.inj heq)
  rw [if_neg (by decide)]
  rw [show ([i ++ '"' :: (t ++ ['"'])] : List Line).getLastD [] =
      i ++ '"' :: (t ++ ['"']) from rfl]
  rw [show (['"'] : Line).dropWhile (fun c => c = 'r') = ['"'] from rfl]
  have hrstrip : rstrip (i ++ '"' :: (t ++ ['"'])) = i ++ '"' :: (t ++ ['"']) := by
    rw [show (i ++ '"' :: (t ++ ['"']) : Line) =
        (i ++ '"' :: t) ++ ['"'] from by simp]
    exact rstrip_last_nonws (by decide)
  rw [hrstrip]
  have hsuf : (['"'] : Line).isSuffixOf (i ++ '"' :: (t ++ ['"'])) = true := by
    rw [List.isSuffixOf_iff_suffix]
    exact ⟨i ++ '"' :: t, by simp⟩
  rw [hsuf]
  rw [if_neg (by simp)]
  rw [show (['"'] : Line).head? = some '"' from rfl]
  rw [if_neg (by decide)]
  rw [show (List.set [i ++ '"' :: (t ++ ['"'])] 0
      (i ++ [] ++ dq3 ++ (t ++ ['"']))) = [i ++ [] ++ dq3 ++ (t ++ ['"'])]
    from rfl]
  rw [show ([i ++ [] ++ dq3 ++ (t ++ ['"'])] : List Line).getLastD [] =
      i ++ [] ++ dq3 ++ (t ++ ['"']) from rfl]
  have hrstrip2 : rstrip (i ++ [] ++ dq3 ++ (t ++ ['"'])) =
      (i ++ dq3 ++ t) ++ ['"'] := by
    rw [show (i ++ [] ++ dq3 ++ (t ++ ['"']) : Line) =
        (i ++ dq3 ++ t) ++ ['"'] from by simp]
    exact rstrip_last_nonws (by decide)
  rw [hrstrip2]
  have htake : ((i ++ dq3 ++ t) ++ ['"']).take
      (((i ++ dq3 ++ t) ++ ['"']).length - (['"'] : Line).length) =
      i ++ dq3 ++ t := by
    have hlen : ((i ++ dq3 ++ t) ++ ['"']).length - (['"'] : Line).length =
        (i ++ dq3 ++ t).length := by
      simp only [List.length_append, List.length_cons, List.length_nil]
      omega
    rw [hlen]
    exact List.take_left _ _
  rw [htake]
  rfl



/-- C6: when quote normalization runs on a docstring whose opening quote style
is not canonical and whose last line, ignoring trailing whitespace, does not
end with the original closing delimiter, `ensure_docstring_triple_quotes`
fails with a `quoteMismatch` error naming the offending quote and line, and
`process_docstring` propagates that error, producing no modified lines. -/
theorem c6_closing_mismatch (l0 : Line) (tail : List Line) (q content : Line)
    (maxW : Nat)
    (hq : quoteTok (l0.drop (l0.takeWhile wsChar).length) = some (q, content))
    (hnc : (q = dq3 || q = 'r' :: dq3) = false)
    (hsuf : (q.dropWhile (fun c => c = 'r')).isSuffixOf
        (rstrip ((l0 :: tail).getLastD [])) = false) :
    ensureTriple (l0 :: tail) =
      .error (.quoteMismatch q ((l0 :: tail).getLastD [])) ∧
    processDocstring (l0 :: tail) maxW true =
      .error (.quoteMismatch q ((l0 :: tail).getLastD [])) := by
  have h1 : ensureTriple (l0 :: tail) =
      .error (.quoteMismatch q ((l0 :: tail).getLastD [])) := by
    unfold ensureTriple
    dsimp only
    rw [hq]
    split
    case _ heq => exact absurd heq (by simp)
    case _ quote content2 heq =>
    obtain ⟨rfl, rfl⟩ := Prod.mk.inj (Option.some.inj heq)
    rw [hnc]
    rw [if_neg (by simp)]
    rw [hsuf]
    rw [if_pos (by simp)]
  refine ⟨h1, ?_⟩
  unfold processDocstring docstringPreReflow
  dsimp only
  rw [if_pos (by simp)]
  rw [h1]

theorem c6_closing_mismatch_witness :
    ensureTriple [[sq, sq, sq, 'D', 'o', 'c', '.', '"', '"', '"']] =
      .error (.quoteMismatch [sq, sq, sq]
        [sq, sq, sq, 'D', 'o', 'c', '.', '"', '"', '"']) ∧
    processDocstring [[sq, sq, sq, 'D', 'o', 'c', '.', '"', '"', '"']] 79 true =
      .error (.quoteMismatch [sq, sq, sq]
        [sq, sq, sq, 'D', 'o', 'c', '.', '"', '"', '"']) :=
  c6_closing_mismatch [sq, sq, sq, 'D', 'o', 'c', '.', '"', '"', '"'] []
    [sq, sq, sq] ['D', 'o', 'c', '.', '"', '"', '"'] 79
    (by decide) (by decide) (by decide)

/-- C7: a single-line docstring that is still longer than `max_length` after
quote normalization is replaced, before any paragraph reflow runs, by exactly
three physical lines: the indent plus the opening marker alone, the indent
plus the inner content alone, and the indent plus the closing marker alone.
`process_docstring` is exactly the reflow step applied to that result. -/
theorem c7_single_line_split (i t : Line) (maxW : Nat) (hi : allWs i = true)
    (hlen : (i ++ dq3 ++ t ++ dq3).length > maxW) :
    docstringPreReflow [i ++ dq3 ++ t ++ dq3] maxW false =
      .ok ([i ++ dq3, i ++ t, i ++ dq3], true) ∧
    processDocstring [i ++ dq3 ++ t ++ dq3] maxW false =
      docstringReflow maxW ([i ++ dq3, i ++ t, i ++ dq3], true) := by
  have hshape : (i ++ dq3 ++ t ++ dq3 : Line) = i ++ dq3 ++ (t ++ dq3) := by
    simp
  rw [hshape] at hlen ⊢
  have htw : (i ++ dq3 ++ (t ++ dq3)).takeWhile wsChar = i := by
    rw [List.append_assoc]
    exact tw_all_head_stop (fun x hx => List.all_eq_true.mp hi x hx)
      (by intro e he
          simp only [dq3, List.cons_append, List.head?_cons, Option.mem_def,
            Option.some.injEq] at he
          subst he
          decide)
  have hdrop : (i ++ dq3 ++ (t ++ dq3)).drop i.length = dq3 ++ (t ++ dq3) := by
    rw [List.append_assoc]
    exact List.drop_left _ _
  have hms : matchSplitSingle (i ++ dq3 ++ (t ++ dq3)) dq3 dq3 = some (i, t) := by
    unfold matchSplitSingle
    dsimp only
    rw [htw]
    rw [hdrop]
    rw [if_pos (List.isPrefixOf_iff_prefix.mpr ⟨t ++ dq3, rfl⟩)]
    rw [show (dq3 ++ (t ++ dq3)).drop dq3.length = t ++ dq3 from
      List.drop_left _ _]
    rw [show (t ++ dq3 : Line) = (t ++ ['"', '"']) ++ ['"'] from by simp [dq3]]
    rw [rstrip_last_nonws (by decide)]
    rw [if_pos (List.isSuffixOf_iff_suffix.mpr ⟨t, by simp [dq3]⟩)]
    have htake : ((t ++ ['"', '"']) ++ ['"']).take
        (((t ++ ['"', '"']) ++ ['"']).length - dq3.length) = t := by
      have hlen2 : ((t ++ ['"', '"']) ++ ['"']).length - dq3.length = t.length := by
        simp only [List.length_append, List.length_cons, List.length_nil, dq3]
        omega
      rw [hlen2]
      rw [show ((t ++ ['"', '"']) ++ ['"'] : Line) = t ++ dq3 from by simp [dq3]]
      exact List.take_left _ _
    rw [htake]
  have hpre : docstringPreReflow [i ++ dq3 ++ (t ++ dq3)] maxW false =
      .ok ([i ++ dq3, i ++ t, i ++ dq3], true) := by
    unfold docstringPreReflow
    dsimp only
    rw [if_pos (by simp only [Bool.false_or, decide_eq_true_eq]; exact hlen)]
    rw [ensureTriple_canonical (t ++ dq3) [] hi]
    dsimp only
    rw [show ([i ++ dq3 ++ (t ++ dq3)] : List Line).headD [] =
      i ++ dq3 ++ (t ++ dq3) from rfl]
    rw [htw]
    rw [hdrop]
    rw [quoteTok_dq3 (t ++ dq3)]
    split
    case _ heq => exact absurd heq (by simp)
    case _ quote content heq =>
    obtain ⟨rfl, rfl⟩ := Prod.mk.inj (Option.some.inj heq)
    rw [if_pos (by
      simp only [List.length_cons, List.length_nil, List.length_append,
        Bool.and_eq_true, decide_eq_true_eq]
      refine ⟨trivial, ?_⟩
      simp only [List.length_append, gt_iff_lt] at hlen
      omega)]
    rw [show (if (dq3 : Line).head? = some 'r' then List.drop 1 dq3 else dq3) =
      dq3 from rfl]
    rw [if_pos rfl]
    rw [hms]
  refine ⟨hpre, ?_⟩
  unfold processDocstring
  rw [hpre]

theorem c7_single_line_split_witness :
    docstringPreReflow [[' ', ' '] ++ dq3 ++ ['a', 'b', ' ', 'c'] ++ dq3] 5 false =
      .ok ([[' ', ' '] ++ dq3, [' ', ' '] ++ ['a', 'b', ' ', 'c'],
        [' ', ' '] ++ dq3], true) ∧
    processDocstring [[' ', ' '] ++ dq3 ++ ['a', 'b', ' ', 'c'] ++ dq3] 5 false =
      docstringReflow 5 ([[' ', ' '] ++ dq3, [' ', ' '] ++ ['a', 'b', ' ', 'c'],
        [' ', ' '] ++ dq3], true) :=
  c7_single_line_split [' ', ' '] ['a', 'b', ' ', 'c'] 5 (by decide) (by decide)

/-- C8: `ensure_docstring_triple_quotes` leaves a docstring already in
canonical triple-double (or raw triple-double) form unchanged and reports
modified = false; a triple-single-quoted or a well-formed single-double-quoted
one-line docstring is rewritten to triple-double quotes with identical inner
content and modified = true. -/
theorem c8_quote_canonicalization (i t rest : Line) (tail : List Line)
    (hi : allWs i = true)
    (ht : ¬ (['"', '"'] : Line).isPrefixOf (t ++ ['"']) = true) :
    ensureTriple ((i ++ dq3 ++ rest) :: tail) =
      .ok ((i ++ dq3 ++ rest) :: tail, false) ∧
    ensureTriple ((i ++ 'r' :: dq3 ++ rest) :: tail) =
      .ok ((i ++ 'r' :: dq3 ++ rest) :: tail, false) ∧
    ensureTriple [i ++ [sq, sq, sq] ++ t ++ [sq, sq, sq]] =
      .ok ([i ++ dq3 ++ t ++ dq3], true) ∧
    ensureTriple [i ++ '"' :: (t ++ ['"'])] =
      .ok ([i ++ dq3 ++ t ++ dq3], true) :=
  ⟨ensureTriple_canonical rest tail hi, ensureTriple_canonical_raw rest tail hi,
   ensureTriple_triple_single i t hi, ensureTriple_single_double i t hi ht⟩

theorem c8_quote_canonicalization_witness :
    ensureTriple (([' '] ++ dq3 ++ ['D', 'o', 'c']) :: [['e', 'n', 'd']]) =
      .ok (([' '] ++ dq3 ++ ['D', 'o', 'c']) :: [['e', 'n', 'd']], false) ∧
    ensureTriple (([' '] ++ 'r' :: dq3 ++ ['D', 'o', 'c']) :: [['e', 'n', 'd']]) =
      .ok (([' '] ++ 'r' :: dq3 ++ ['D', 'o', 'c']) :: [['e', 'n', 'd']], false) ∧
    ensureTriple [[' '] ++ [sq, sq, sq] ++ ['D', 'o', 'c'] ++ [sq, sq, sq]] =
      .ok ([[' '] ++ dq3 ++ ['D', 'o', 'c'] ++ dq3], true) ∧
    ensureTriple [[' '] ++ '"' :: (['D', 'o', 'c'] ++ ['"'])] =
      .ok ([[' '] ++ dq3 ++ ['D', 'o', 'c'] ++ dq3], true) :=
  c8_quote_canonicalization [' '] ['D', 'o', 'c'] ['D', 'o', 'c'] [['e', 'n', 'd']]
    (by decide) (by decide)

/-- C5: a comment line containing the exclusion marker is merged into the
preceding comment paragraph and rewrapped (its `#` is stripped with the
paragraph prefix before the `noqa` check runs), contradicting the claim
that such a line is never rewrapped. -/
theorem c5_noqa_line_merged :
    hasNoqa "# noqa dd ee".toList = true ∧
    pyRewrap ["# aaaa bbbb c".toList, "# noqa dd ee".toList] 10 false =
      some (["# aaaa".toList, "# bbbb c".toList, "# noqa dd".toList,
        "# ee".toList], true) ∧
    "# noqa dd ee".toList ∉
      ["# aaaa".toList, "# bbbb c".toList, "# noqa dd".toList,
        "# ee".toList] := by
  refine ⟨?_, ?_, ?_⟩ <;> decide

end W505
